import Mathlib

/-!
# redido: a reconnecting command executor

A shallow embedding of `redido.go` (package `redido`) and of the properties its
specification states about it.

The Go code talks to two external collaborators, the connection factory and
the connections it produces.  Their behaviour is arbitrary, so it is modelled
by transition functions over an abstract world `σ`; a callee may also panic.
Every external invocation and every `time.Sleep` is appended to a log, so that
"how often was the factory invoked" is a statement about that log.
-/

namespace Redido

/-! ## Data model -/

/-- Dynamic values of Go type `interface{}`: replies and command arguments. -/
inductive Value where
  | nil
  | int (n : Int)
  | str (s : String)
  deriving DecidableEq, Repr

/-- A non-nil Go `error` value, as far as `Doer.do` can tell errors apart:
`io.EOF` itself, an error whose dynamic type implements `net.Error`, or any
other error.  A nil `error` is `none : Option Error`. -/
inductive Error where
  | EOF
  | net (msg : String)
  | other (msg : String)
  deriving DecidableEq, Repr

/-- Identity of a connection object.  A value of interface type `Conn` is
`Option ConnId`, with `none` the nil interface value. -/
abbrev ConnId := Nat

/-- Ways in which a call can fail to return. -/
inductive Panic where
  /-- a method was called through a nil `Conn` interface value -/
  | nilConn
  /-- the factory or a connection method panicked -/
  | callee (msg : String)
  deriving DecidableEq, Repr

/-- A reply together with an error, the result pair of `Do`. -/
abbrev Result := Value × Option Error

/-- Type `ConnFactory`: `func() (Conn, error)`, run against the world. -/
abbrev ConnFactory (σ : Type) := σ → Except Panic ((Option ConnId × Option Error) × σ)

/-- Method table of interface `Conn`: what `Do` and `Close` do on each
connection object. -/
structure Conn (σ : Type) where
  Do : ConnId → String → List Value → σ → Except Panic (Result × σ)
  Close : ConnId → σ → Except Panic (Option Error × σ)

/-- Struct `Doer`.  The mutex has no sequential content and is left out. -/
structure Doer (σ : Type) where
  newConn : ConnFactory σ
  c : Option ConnId

/-- One observable action of a `Doer`. -/
inductive Event where
  /-- the factory was invoked and returned this pair -/
  | newConn (c : Option ConnId) (err : Option Error)
  /-- `Conn.Do` was invoked on `c` with these arguments and returned this pair -/
  | connDo (c : ConnId) (cmd : String) (args : List Value) (reply : Value) (err : Option Error)
  /-- `Conn.Close` was invoked on `c` -/
  | connClose (c : ConnId)
  /-- `time.Sleep` of this many seconds -/
  | sleep (seconds : Nat)
  deriving DecidableEq, Repr

/-- A `Doer` together with the world it runs in and the log of its actions. -/
structure Machine (σ : Type) where
  d : Doer σ
  w : σ
  log : List Event

/-! ## The operations of `redido.go` -/

/-- Function `New`. -/
def New {σ : Type} (cf : ConnFactory σ) : Doer σ :=
  { newConn := cf, c := none }

/-- A machine around a fresh `Doer`, with nothing logged yet. -/
def Machine.fresh {σ : Type} (cf : ConnFactory σ) (w : σ) : Machine σ :=
  { d := New cf, w := w, log := [] }

/-- The type assertion `err.(net.Error)` of `Doer.do`: its `ok` result. -/
def isNetError : Option Error → Bool
  | some (Error.net _) => true
  | _ => false

/-- The condition `ok || err == io.EOF` under which `Doer.do` drops the
connection. -/
def dropsConn (err : Option Error) : Bool :=
  isNetError err || err == some Error.EOF

/-- Method `Doer.Close`. -/
def Doer.Close {σ : Type} (impl : Conn σ) (m : Machine σ) : Except Panic (Machine σ) :=
  match m.d.c with
  | none => .ok m
  | some c =>
    match impl.Close c m.w with
    | .error p => .error p
    | .ok (_, w1) =>
      .ok { d := { newConn := m.d.newConn, c := none }, w := w1,
            log := m.log ++ [Event.connClose c] }

/-- The second half of `Doer.do`: `d.c.Do(cmd, args...)` and the
classification of its error. -/
def Doer.callConn {σ : Type} (impl : Conn σ) (cmd : String) (args : List Value)
    (m : Machine σ) : Except Panic (Result × Machine σ) :=
  match m.d.c with
  | none => .error Panic.nilConn
  | some c =>
    match impl.Do c cmd args m.w with
    | .error p => .error p
    | .ok ((r, err), w1) =>
      let m1 : Machine σ :=
        { d := m.d, w := w1, log := m.log ++ [Event.connDo c cmd args r err] }
      if dropsConn err then
        match Doer.Close impl m1 with
        | .error p => .error p
        | .ok m2 => .ok ((r, err), m2)
      else .ok ((r, err), m1)

/-- Method `Doer.do`: one attempt, without any retries. -/
def Doer.do_ {σ : Type} (impl : Conn σ) (cmd : String) (args : List Value)
    (m : Machine σ) : Except Panic (Result × Machine σ) :=
  match m.d.c with
  | none =>
    match m.d.newConn m.w with
    | .error p => .error p
    | .ok ((c, err), w1) =>
      let m1 : Machine σ :=
        { d := { newConn := m.d.newConn, c := c }, w := w1,
          log := m.log ++ [Event.newConn c err] }
      match err with
      | some e => .ok ((Value.nil, some e), m1)
      | none => Doer.callConn impl cmd args m1
  | some _ => Doer.callConn impl cmd args m

/-- The loop of `Doer.Do`, entered with counter `n`, `k` iterations left and
the current values `last` of the named results. -/
def Doer.DoLoop {σ : Type} (impl : Conn σ) (cmd : String) (args : List Value) :
    Nat → Nat → Result → Machine σ → Except Panic (Result × Machine σ)
  | 0, _, last, m => .ok (last, m)
  | k + 1, n, _, m =>
    match Doer.do_ impl cmd args m with
    | .error p => .error p
    | .ok (res, m1) =>
      match m1.d.c with
      | some _ => .ok (res, m1)
      | none =>
        Doer.DoLoop impl cmd args k (n + 1) res
          { d := m1.d, w := m1.w, log := m1.log ++ [Event.sleep n] }

/-- Method `Doer.Do`: `for n := 0; n < 5; n++`. -/
def Doer.Do {σ : Type} (impl : Conn σ) (cmd : String) (args : List Value)
    (m : Machine σ) : Except Panic (Result × Machine σ) :=
  Doer.DoLoop impl cmd args 5 0 (Value.nil, none) m

/-! ## Sequences of calls -/

/-- A call made on a `Doer` by its user. -/
inductive Call where
  | Do (cmd : String) (args : List Value)
  | Close
  deriving DecidableEq, Repr

/-- Calls made one after another; the results of the `Do` calls are collected
in order. -/
def runCalls {σ : Type} (impl : Conn σ) :
    List Call → Machine σ → Except Panic (List Result × Machine σ)
  | [], m => .ok ([], m)
  | Call.Do cmd args :: rest, m =>
    match Doer.Do impl cmd args m with
    | .error p => .error p
    | .ok (res, m1) =>
      match runCalls impl rest m1 with
      | .error p => .error p
      | .ok (rs, m2) => .ok (res :: rs, m2)
  | Call.Close :: rest, m =>
    match Doer.Close impl m with
    | .error p => .error p
    | .ok m1 => runCalls impl rest m1

/-! ## Reading the log -/

/-- Number of factory invocations in a log. -/
def factoryCalls : List Event → Nat
  | [] => 0
  | Event.newConn _ _ :: es => factoryCalls es + 1
  | _ :: es => factoryCalls es

/-- Number of `Conn.Do` invocations in a log. -/
def connDoCalls : List Event → Nat
  | [] => 0
  | Event.connDo _ _ _ _ _ :: es => connDoCalls es + 1
  | _ :: es => connDoCalls es

/-- Number of `Conn.Close` invocations in a log. -/
def connCloseCalls : List Event → Nat
  | [] => 0
  | Event.connClose _ :: es => connCloseCalls es + 1
  | _ :: es => connCloseCalls es

/-- The sleep durations of a log, in order. -/
def sleeps : List Event → List Nat
  | [] => []
  | Event.sleep n :: es => n :: sleeps es
  | _ :: es => sleeps es

/-- The connections the factory handed out, in order. -/
def yielded : List Event → List ConnId
  | [] => []
  | Event.newConn (some c) _ :: es => c :: yielded es
  | _ :: es => yielded es

/-- The connections on which `Conn.Do` was invoked, in order. -/
def usedConns : List Event → List ConnId
  | [] => []
  | Event.connDo c _ _ _ _ :: es => c :: usedConns es
  | _ :: es => usedConns es

/-- The connections on which `Conn.Close` was invoked, in order. -/
def closedConns : List Event → List ConnId
  | [] => []
  | Event.connClose c :: es => c :: closedConns es
  | _ :: es => closedConns es

/-- The result pair of the last `Conn.Do` invocation of a log. -/
def lastConnDo : List Event → Option Result
  | [] => none
  | Event.connDo _ _ _ r e :: es =>
    match lastConnDo es with
    | some x => some x
    | none => some (r, e)
  | _ :: es => lastConnDo es

/-! ## Fixtures: simple factories and connections -/

/-- A factory that returns the same pair on every invocation. -/
def constFactory {σ : Type} (r : Option ConnId × Option Error) : ConnFactory σ :=
  fun w => .ok (r, w)

/-- A factory over a counter: each invocation succeeds with a new connection. -/
def countingFactory : ConnFactory Nat :=
  fun n => .ok ((some n, none), n + 1)

/-- Connections whose `Do` always returns the same pair and whose `Close`
returns nil. -/
def constConn {σ : Type} (r : Result) : Conn σ :=
  { Do := fun _ _ _ w => .ok (r, w), Close := fun _ w => .ok (none, w) }

/-- A world scripting what the next factory invocations and the next `Conn.Do`
invocations return. -/
structure Script where
  dials : List (Option ConnId × Option Error)
  replies : List Result

/-- The factory of a scripted world. -/
def Script.factory : ConnFactory Script := fun s =>
  match s.dials with
  | [] => .error (Panic.callee "no dial scripted")
  | r :: rest => .ok (r, { dials := rest, replies := s.replies })

/-- The connections of a scripted world. -/
def Script.conn : Conn Script :=
  { Do := fun _ _ _ s =>
      match s.replies with
      | [] => .error (Panic.callee "no reply scripted")
      | r :: rest => .ok (r, { dials := s.dials, replies := rest })
    Close := fun _ s => .ok (none, s) }

/-! ## Vocabulary of the properties -/

/-- What the first attempt of a call needs in order to reach `Conn.Do` on `c`
in world `w1`: a connection is already held, or the factory succeeds.  `pre`
is what the attempt logs before `Conn.Do`. -/
def Reaches {σ : Type} (m : Machine σ) (c : ConnId) (w1 : σ) (pre : List Event) : Prop :=
  (m.d.c = some c ∧ w1 = m.w ∧ pre = []) ∨
  (m.d.c = none ∧ m.d.newConn m.w = .ok ((some c, none), w1) ∧
    pre = [Event.newConn (some c) none])

/-- The log of `k` consecutive attempts, the first with loop counter `n`, in
each of which the factory fails with `(nil, F)`: a factory invocation, then
the sleep of that iteration. -/
def failLog (F : Error) : Nat → Nat → List Event
  | 0, _ => []
  | k + 1, n => Event.newConn none (some F) :: Event.sleep n :: failLog F k (n + 1)

/-- Number of connections the factory has produced. -/
def created (log : List Event) : Nat := (yielded log).length

/-- Whenever the factory is invoked, every connection it produced before has
been closed: no connection is outstanding at that moment. -/
def FactoryIdle (log : List Event) : Prop :=
  ∀ pre c e post, log = pre ++ Event.newConn c e :: post →
    created pre = connCloseCalls pre

/-- The connection on which an event invokes a method, if any. -/
def Event.target : Event → Option ConnId
  | Event.connDo c _ _ _ _ => some c
  | Event.connClose c => some c
  | _ => none

/-- No method is invoked on a connection after `Conn.Close` was invoked on
it: for every `Conn.Close` on `c` in the log, no later event targets `c`. -/
def NoUseAfterClose (log : List Event) : Prop :=
  log.Pairwise (fun a b => ∀ c, a = Event.connClose c → b.target ≠ some c)

/-- The four observable actions, as transitions of the pair of the held
connection and the log.  The factory is invoked and the loop sleeps only
while no connection is held; methods are invoked only on the held
connection. -/
inductive Step : Option ConnId → List Event → Option ConnId → List Event → Prop where
  | dial (l : List Event) (co : Option ConnId) (eo : Option Error) :
      Step none l co (l ++ [Event.newConn co eo])
  | call (l : List Event) (c : ConnId) (cmd : String) (args : List Value)
      (r : Value) (e : Option Error) :
      Step (some c) l (some c) (l ++ [Event.connDo c cmd args r e])
  | close (l : List Event) (c : ConnId) :
      Step (some c) l none (l ++ [Event.connClose c])
  | sleep (l : List Event) (n : Nat) :
      Step none l none (l ++ [Event.sleep n])

/-- Finite sequences of actions. -/
inductive Steps (h0 : Option ConnId) (l0 : List Event) :
    Option ConnId → List Event → Prop where
  | refl : Steps h0 l0 h0 l0
  | snoc {h1 h2 : Option ConnId} {l1 l2 : List Event} :
      Steps h0 l0 h1 l1 → Step h1 l1 h2 l2 → Steps h0 l0 h2 l2

/-- The shapes of what one call of `Doer.do` with `cmd` and `args` appends to
the log: a factory invocation that returned an error; or an optional factory
invocation without error, then `Conn.Do` with `cmd` and `args`, then an
optional `Conn.Close` on the same connection. -/
def AttemptLog (cmd : String) (args : List Value) (evs : List Event) : Prop :=
  (∃ co e, evs = [Event.newConn co (some e)]) ∨
  (∃ pre c r err tail, (pre = [] ∨ pre = [Event.newConn (some c) none]) ∧
    (tail = [] ∨ tail = [Event.connClose c]) ∧
    evs = pre ++ Event.connDo c cmd args r err :: tail)

/-- The loop of `Doer.Do` once more, also counting the calls of `Doer.do` it
makes (the attempts). -/
def Doer.DoLoopCount {σ : Type} (impl : Conn σ) (cmd : String) (args : List Value) :
    Nat → Nat → Result → Machine σ → Except Panic (Result × Machine σ × Nat)
  | 0, _, last, m => .ok (last, m, 0)
  | k + 1, n, _, m =>
    match Doer.do_ impl cmd args m with
    | .error p => .error p
    | .ok (res, m1) =>
      match m1.d.c with
      | some _ => .ok (res, m1, 1)
      | none =>
        match Doer.DoLoopCount impl cmd args k (n + 1) res
            { d := m1.d, w := m1.w, log := m1.log ++ [Event.sleep n] } with
        | .error p => .error p
        | .ok (res2, m2, a) => .ok (res2, m2, a + 1)

/-- Method `Doer.Do`, with the number of attempts it made. -/
def Doer.DoCount {σ : Type} (impl : Conn σ) (cmd : String) (args : List Value)
    (m : Machine σ) : Except Panic (Result × Machine σ × Nat) :=
  Doer.DoLoopCount impl cmd args 5 0 (Value.nil, none) m

/-- The machine on which attempt number `i` of the loop of `Doer.Do` runs,
counted from an iteration that starts on `m` with loop counter `n`: each
earlier attempt is followed by the sleep of its iteration. -/
def Doer.attemptStart {σ : Type} (impl : Conn σ) (cmd : String) (args : List Value) :
    Nat → Nat → Machine σ → Except Panic (Machine σ)
  | 0, _, m => .ok m
  | i + 1, n, m =>
    match Doer.do_ impl cmd args m with
    | .error p => .error p
    | .ok (_, m1) =>
      Doer.attemptStart impl cmd args i (n + 1)
        { d := m1.d, w := m1.w, log := m1.log ++ [Event.sleep n] }

/-! ## The test double of `redido_test.go` -/

/-- How `%v` prints a value. -/
def Value.format : Value → String
  | Value.nil => "<nil>"
  | Value.int n => toString n
  | Value.str s => s

/-- Function `cmdArgsToString`, as its callers use it: the argument slice is
passed as the single variadic argument, so it is printed inside one more pair
of brackets. -/
def cmdArgsToString (cmd : String) (args : List Value) : String :=
  cmd ++ "[[" ++ " ".intercalate (args.map Value.format) ++ "]];"

/-- Struct `logConnFactory`.  The pointer to the `n`-th `logConn` created is
represented by the number `n`; a nil `conn` is `none`. -/
structure logConnFactory where
  done : Nat
  lastDone : String
  created : Nat
  closed : Nat
  err : Option Error
  conn : Option ConnId

/-- The zero value `logConnFactory{}`. -/
def logConnFactory.zero : logConnFactory :=
  { done := 0, lastDone := "", created := 0, closed := 0, err := none, conn := none }

/-- Method `logConnFactory.New`. -/
def logConnFactory.New : ConnFactory logConnFactory := fun f =>
  match f.conn with
  | some _ => .error (Panic.callee "already has a connection")
  | none =>
    match f.err with
    | some e =>
      .ok ((none, some e),
        { done := f.done, lastDone := f.lastDone, created := f.created, closed := f.closed,
          err := none, conn := none })
    | none =>
      .ok ((some (f.created + 1), none),
        { done := f.done, lastDone := f.lastDone, created := f.created + 1,
          closed := f.closed, err := none, conn := some (f.created + 1) })

/-- Method `logConn.Do`. -/
def logConn.Do (_c : ConnId) (cmd : String) (args : List Value) (f : logConnFactory) :
    Except Panic (Result × logConnFactory) :=
  match f.err with
  | none =>
    .ok ((Value.int ((f.done + 1 : Nat) : Int), none),
      { done := f.done + 1, lastDone := cmdArgsToString cmd args, created := f.created,
        closed := f.closed, err := none, conn := f.conn })
  | some e => .ok ((Value.int (f.done : Int), some e), f)

/-- Method `logConn.Close`. -/
def logConn.Close (c : ConnId) (f : logConnFactory) :
    Except Panic (Option Error × logConnFactory) :=
  if f.conn ≠ some c then .error (Panic.callee "wrong connection in factory")
  else
    .ok (none,
      { done := f.done, lastDone := f.lastDone, created := f.created,
        closed := f.closed + 1, err := none, conn := none })

/-- The methods of `logConn` as a `Conn`. -/
def logConnImpl : Conn logConnFactory :=
  { Do := logConn.Do, Close := logConn.Close }

/-- One entry of the `tasks` table of `TestDoConnError`. -/
structure Task where
  err : Option Error
  cmd : String
  args : List Value

/-- One iteration of the test loop of `TestDoConnError`, up to the call of
`d.Do`: a non-nil `task.err` is stored in `f.err` first. -/
def runTask (t : Task) (m : Machine logConnFactory) :
    Except Panic (Result × Machine logConnFactory) :=
  match t.err with
  | some e =>
    Doer.Do logConnImpl t.cmd t.args
      { d := m.d,
        w := { done := m.w.done, lastDone := m.w.lastDone, created := m.w.created,
               closed := m.w.closed, err := some e, conn := m.w.conn },
        log := m.log }
  | none => Doer.Do logConnImpl t.cmd t.args m

/-- The test loop of `TestDoConnError`: the results of the `Do` calls, in
order. -/
def runTasks : List Task → Machine logConnFactory →
    Except Panic (List Result × Machine logConnFactory)
  | [], m => .ok ([], m)
  | t :: rest, m =>
    match runTask t m with
    | .error p => .error p
    | .ok (res, m1) =>
      match runTasks rest m1 with
      | .error p => .error p
      | .ok (rs, m2) => .ok (res :: rs, m2)

/-- The test loop followed by the final `d.Close()`. -/
def runTest (tasks : List Task) : Except Panic (List Result × Machine logConnFactory) :=
  match runTasks tasks (Machine.fresh logConnFactory.New logConnFactory.zero) with
  | .error p => .error p
  | .ok (rs, m1) =>
    match Doer.Close logConnImpl m1 with
    | .error p => .error p
    | .ok m2 => .ok (rs, m2)

/-- The number of tasks of the test that inject an error (`errors`). -/
def injected (tasks : List Task) : Nat :=
  (tasks.filter (fun t => t.err.isSome)).length

/-- The `tasks` table of `TestDoConnError`. -/
def testTasks : List Task :=
  [ { err := some Error.EOF, cmd := "TEST1", args := [Value.int 1, Value.int 1] },
    { err := none, cmd := "TEST2", args := [Value.int 2] },
    { err := some (Error.net "DNSError"), cmd := "TEST3",
      args := [Value.str "three", Value.int 3] },
    { err := some Error.EOF, cmd := "TEST4", args := [Value.int 4] },
    { err := none, cmd := "TEST5", args := [Value.int 5, Value.str "f√ºnf"] } ]

/-- The connections handed out by the successful factory invocations, those
that returned a connection and a nil error, in order. -/
def succeeded : List Event → List ConnId
  | [] => []
  | Event.newConn (some c) none :: es => c :: succeeded es
  | _ :: es => succeeded es

/-! ## Single attempts -/

theorem callConn_keep {σ : Type} (impl : Conn σ) (cmd : String) (args : List Value)
    (m : Machine σ) (c : ConnId) (r : Value) (err : Option Error) (w1 : σ)
    (hc : m.d.c = some c) (hdo : impl.Do c cmd args m.w = .ok ((r, err), w1))
    (hk : dropsConn err = false) :
    Doer.callConn impl cmd args m =
      .ok ((r, err), { d := m.d, w := w1, log := m.log ++ [Event.connDo c cmd args r err] }) := by
  simp [Doer.callConn, hc, hdo, hk]

theorem callConn_drop {σ : Type} (impl : Conn σ) (cmd : String) (args : List Value)
    (m : Machine σ) (c : ConnId) (r : Value) (err ce : Option Error) (w1 w2 : σ)
    (hc : m.d.c = some c) (hdo : impl.Do c cmd args m.w = .ok ((r, err), w1))
    (hk : dropsConn err = true) (hcl : impl.Close c w1 = .ok (ce, w2)) :
    Doer.callConn impl cmd args m =
      .ok ((r, err), { d := { newConn := m.d.newConn, c := none }, w := w2,
                       log := m.log ++ [Event.connDo c cmd args r err, Event.connClose c] }) := by
  simp [Doer.callConn, Doer.Close, hc, hdo, hk, hcl]

theorem do_keep {σ : Type} (impl : Conn σ) (cmd : String) (args : List Value)
    (m : Machine σ) (c : ConnId) (r : Value) (err : Option Error) (w1 w2 : σ)
    (pre : List Event) (hreach : Reaches m c w1 pre)
    (hdo : impl.Do c cmd args w1 = .ok ((r, err), w2)) (hk : dropsConn err = false) :
    Doer.do_ impl cmd args m =
      .ok ((r, err), { d := { newConn := m.d.newConn, c := some c }, w := w2,
                       log := m.log ++ pre ++ [Event.connDo c cmd args r err] }) := by
  rcases hreach with ⟨hc, hw, hp⟩ | ⟨hc, hf, hp⟩
  · subst hw hp
    have h := callConn_keep impl cmd args m c r err w2 hc hdo hk
    obtain ⟨⟨f, c0⟩, w, l⟩ := m
    simp only at hc
    subst hc
    simpa [Doer.do_] using h
  · subst hp
    simp only [Doer.do_, hc, hf]
    rw [callConn_keep impl cmd args _ c r err w2 rfl hdo hk]

theorem do_drop {σ : Type} (impl : Conn σ) (cmd : String) (args : List Value)
    (m : Machine σ) (c : ConnId) (r : Value) (err ce : Option Error) (w1 w2 w3 : σ)
    (pre : List Event) (hreach : Reaches m c w1 pre)
    (hdo : impl.Do c cmd args w1 = .ok ((r, err), w2)) (hk : dropsConn err = true)
    (hcl : impl.Close c w2 = .ok (ce, w3)) :
    Doer.do_ impl cmd args m =
      .ok ((r, err), { d := { newConn := m.d.newConn, c := none }, w := w3,
                       log := m.log ++ pre ++
                         [Event.connDo c cmd args r err, Event.connClose c] }) := by
  rcases hreach with ⟨hc, hw, hp⟩ | ⟨hc, hf, hp⟩
  · subst hw hp
    have h := callConn_drop impl cmd args m c r err ce w2 w3 hc hdo hk hcl
    simpa [Doer.do_, hc] using h
  · subst hp
    simp only [Doer.do_, hc, hf]
    rw [callConn_drop impl cmd args _ c r err ce w2 w3 rfl hdo hk hcl]

theorem do_factory_error {σ : Type} (impl : Conn σ) (cmd : String) (args : List Value)
    (m : Machine σ) (c : Option ConnId) (e : Error) (w1 : σ)
    (hc : m.d.c = none) (hf : m.d.newConn m.w = .ok ((c, some e), w1)) :
    Doer.do_ impl cmd args m =
      .ok ((Value.nil, some e), { d := { newConn := m.d.newConn, c := c }, w := w1,
                                  log := m.log ++ [Event.newConn c (some e)] }) := by
  simp [Doer.do_, hc, hf]

/-! ## The retry loop -/

theorem DoLoop_return {σ : Type} (impl : Conn σ) (cmd : String) (args : List Value)
    (k n : Nat) (last res : Result) (m m1 : Machine σ) (c : ConnId)
    (hdo : Doer.do_ impl cmd args m = .ok (res, m1)) (hc : m1.d.c = some c) :
    Doer.DoLoop impl cmd args (k + 1) n last m = .ok (res, m1) := by
  simp [Doer.DoLoop, hdo, hc]

theorem DoLoop_retry {σ : Type} (impl : Conn σ) (cmd : String) (args : List Value)
    (k n : Nat) (last res : Result) (m m1 : Machine σ)
    (hdo : Doer.do_ impl cmd args m = .ok (res, m1)) (hc : m1.d.c = none) :
    Doer.DoLoop impl cmd args (k + 1) n last m =
      Doer.DoLoop impl cmd args k (n + 1) res
        { d := m1.d, w := m1.w, log := m1.log ++ [Event.sleep n] } := by
  simp [Doer.DoLoop, hdo, hc]

theorem dropsConn_other (e : Error) (hnet : isNetError (some e) = false)
    (heof : e ≠ Error.EOF) : dropsConn (some e) = false := by
  cases e <;> simp_all [dropsConn, isNetError]

/-! ## C1: application errors are surfaced at once -/

/-- C1.  If the first attempt of `Do` reaches `Conn.Do` on `c` (a connection
is held, or the factory succeeds) and that `Conn.Do` returns `(r, e)` with `e`
non-nil and neither a `net.Error` nor `io.EOF`, then `Do` returns exactly
`(r, e)`, still holding `c`; `Conn.Do` was invoked once, `Conn.Close` never,
and nothing slept. -/
theorem application_error_not_retried {σ : Type} (impl : Conn σ) (cmd : String)
    (args : List Value) (m : Machine σ) (c : ConnId) (w1 w2 : σ) (pre : List Event)
    (r : Value) (e : Error) (hreach : Reaches m c w1 pre)
    (hdo : impl.Do c cmd args w1 = .ok ((r, some e), w2))
    (hnet : isNetError (some e) = false) (heof : e ≠ Error.EOF) :
    Doer.Do impl cmd args m =
        .ok ((r, some e), { d := { newConn := m.d.newConn, c := some c }, w := w2,
                            log := m.log ++ pre ++ [Event.connDo c cmd args r (some e)] }) ∧
      connDoCalls (pre ++ [Event.connDo c cmd args r (some e)]) = 1 ∧
      connCloseCalls (pre ++ [Event.connDo c cmd args r (some e)]) = 0 ∧
      sleeps (pre ++ [Event.connDo c cmd args r (some e)]) = [] := by
  have hk := dropsConn_other e hnet heof
  have h1 := do_keep impl cmd args m c r (some e) w1 w2 pre hreach hdo hk
  refine ⟨?_, ?_⟩
  · exact DoLoop_return impl cmd args 4 0 _ _ m _ c h1 rfl
  · rcases hreach with ⟨_, _, hp⟩ | ⟨_, _, hp⟩ <;> subst hp <;>
      simp [connDoCalls, connCloseCalls, sleeps]

/-- C1 on a fresh `Doer` whose connection answers `BADCMD` with a custom
error. -/
theorem application_error_not_retried_witness :
    Doer.Do Script.conn "BADCMD" []
        (Machine.fresh Script.factory
          { dials := [(some 7, none)],
            replies := [(Value.int 1, some (Error.other "custom error"))] }) =
      .ok ((Value.int 1, some (Error.other "custom error")),
           { d := { newConn := Script.factory, c := some 7 },
             w := { dials := [], replies := [] },
             log := [] ++ [Event.newConn (some 7) none] ++
               [Event.connDo 7 "BADCMD" [] (Value.int 1) (some (Error.other "custom error"))] }) :=
  (application_error_not_retried Script.conn "BADCMD" []
    (Machine.fresh Script.factory
      { dials := [(some 7, none)],
        replies := [(Value.int 1, some (Error.other "custom error"))] })
    7 { dials := [], replies := [(Value.int 1, some (Error.other "custom error"))] }
    { dials := [], replies := [] } [Event.newConn (some 7) none]
    (Value.int 1) (Error.other "custom error")
    (Or.inr ⟨rfl, rfl, rfl⟩) rfl rfl (by decide)).1

theorem dropsConn_transport (e : Error)
    (ht : isNetError (some e) = true ∨ e = Error.EOF) : dropsConn (some e) = true := by
  rcases ht with h | h
  · simp [dropsConn, h]
  · subst h
    rfl

/-! ## C2: a transport failure is followed by a reconnect -/

/-- C2.  If the first `Conn.Do` of a `Do` call, on connection `c`, returns a
transport error (a `net.Error` or `io.EOF`), the next factory invocation
succeeds with `c2` and `c2.Do` returns `(v, nil)`, then `Do` returns
`(v, nil)` holding `c2`.  The log of the call shows `c` closed once and one
factory invocation between the failure and the second `Conn.Do`. -/
theorem transport_failure_reconnects {σ : Type} (impl : Conn σ) (cmd : String)
    (args : List Value) (m : Machine σ) (c c2 : ConnId) (w1 w2 w3 w4 w5 : σ)
    (pre : List Event) (r v : Value) (e : Error) (ce : Option Error)
    (hreach : Reaches m c w1 pre)
    (hdo : impl.Do c cmd args w1 = .ok ((r, some e), w2))
    (ht : isNetError (some e) = true ∨ e = Error.EOF)
    (hcl : impl.Close c w2 = .ok (ce, w3))
    (hfac : m.d.newConn w3 = .ok ((some c2, none), w4))
    (hdo2 : impl.Do c2 cmd args w4 = .ok ((v, none), w5)) :
    Doer.Do impl cmd args m =
        .ok ((v, none), { d := { newConn := m.d.newConn, c := some c2 }, w := w5,
                          log := m.log ++ pre ++
                            [Event.connDo c cmd args r (some e), Event.connClose c,
                             Event.sleep 0, Event.newConn (some c2) none,
                             Event.connDo c2 cmd args v none] }) ∧
      closedConns (pre ++ [Event.connDo c cmd args r (some e), Event.connClose c,
          Event.sleep 0, Event.newConn (some c2) none,
          Event.connDo c2 cmd args v none]) = [c] ∧
      factoryCalls (pre ++ [Event.connDo c cmd args r (some e), Event.connClose c,
          Event.sleep 0, Event.newConn (some c2) none,
          Event.connDo c2 cmd args v none]) = factoryCalls pre + 1 := by
  have hk := dropsConn_transport e ht
  have h1 := do_drop impl cmd args m c r (some e) ce w1 w2 w3 pre hreach hdo hk hcl
  refine ⟨?_, ?_⟩
  · unfold Doer.Do
    rw [DoLoop_retry impl cmd args 4 0 _ _ m _ h1 rfl]
    have h2 := do_keep impl cmd args
      { d := { newConn := m.d.newConn, c := none }, w := w3,
        log := m.log ++ pre ++
          [Event.connDo c cmd args r (some e), Event.connClose c] ++ [Event.sleep 0] }
      c2 v none w4 w5 [Event.newConn (some c2) none] (Or.inr ⟨rfl, hfac, rfl⟩) hdo2 rfl
    rw [DoLoop_return impl cmd args 3 1 _ _ _ _ c2 h2 rfl]
    simp
  · rcases hreach with ⟨_, _, hp⟩ | ⟨_, _, hp⟩ <;> subst hp <;>
      simp [closedConns, factoryCalls]

/-- C2 on a fresh `Doer`: the first connection answers `SET` with `io.EOF`,
the second with `"OK"`; the factory is invoked twice. -/
theorem transport_failure_reconnects_witness :
    Doer.Do Script.conn "SET" [Value.str "k", Value.str "v"]
        (Machine.fresh Script.factory
          { dials := [(some 1, none), (some 2, none)],
            replies := [(Value.nil, some Error.EOF), (Value.str "OK", none)] }) =
      .ok ((Value.str "OK", none),
           { d := { newConn := Script.factory, c := some 2 },
             w := { dials := [], replies := [] },
             log := [] ++ [Event.newConn (some 1) none] ++
               [Event.connDo 1 "SET" [Value.str "k", Value.str "v"] Value.nil (some Error.EOF),
                Event.connClose 1, Event.sleep 0, Event.newConn (some 2) none,
                Event.connDo 2 "SET" [Value.str "k", Value.str "v"] (Value.str "OK") none] }) ∧
      factoryCalls ([Event.newConn (some 1) none] ++
               [Event.connDo 1 "SET" [Value.str "k", Value.str "v"] Value.nil (some Error.EOF),
                Event.connClose 1, Event.sleep 0, Event.newConn (some 2) none,
                Event.connDo 2 "SET" [Value.str "k", Value.str "v"] (Value.str "OK") none]) =
        factoryCalls [Event.newConn (some 1) none] + 1 :=
  have h := transport_failure_reconnects Script.conn "SET" [Value.str "k", Value.str "v"]
    (Machine.fresh Script.factory
      { dials := [(some 1, none), (some 2, none)],
        replies := [(Value.nil, some Error.EOF), (Value.str "OK", none)] })
    1 2
    { dials := [(some 2, none)],
      replies := [(Value.nil, some Error.EOF), (Value.str "OK", none)] }
    { dials := [(some 2, none)], replies := [(Value.str "OK", none)] }
    { dials := [(some 2, none)], replies := [(Value.str "OK", none)] }
    { dials := [], replies := [(Value.str "OK", none)] }
    { dials := [], replies := [] }
    [Event.newConn (some 1) none] Value.nil (Value.str "OK") Error.EOF none
    (Or.inr ⟨rfl, rfl, rfl⟩) rfl (Or.inr rfl) rfl rfl rfl
  ⟨h.1, h.2.2⟩

/-! ## Logs of concatenated runs -/

theorem factoryCalls_append (a b : List Event) :
    factoryCalls (a ++ b) = factoryCalls a + factoryCalls b := by
  induction a with
  | nil => simp [factoryCalls]
  | cons x xs ih =>
    cases x <;> simp [factoryCalls, ih]
    omega

theorem connDoCalls_append (a b : List Event) :
    connDoCalls (a ++ b) = connDoCalls a + connDoCalls b := by
  induction a with
  | nil => simp [connDoCalls]
  | cons x xs ih =>
    cases x <;> simp [connDoCalls, ih]
    omega

theorem connCloseCalls_append (a b : List Event) :
    connCloseCalls (a ++ b) = connCloseCalls a + connCloseCalls b := by
  induction a with
  | nil => simp [connCloseCalls]
  | cons x xs ih =>
    cases x <;> simp [connCloseCalls, ih]
    omega

theorem sleeps_append (a b : List Event) : sleeps (a ++ b) = sleeps a ++ sleeps b := by
  induction a with
  | nil => simp [sleeps]
  | cons x xs ih => cases x <;> simp [sleeps, ih]

theorem usedConns_append (a b : List Event) :
    usedConns (a ++ b) = usedConns a ++ usedConns b := by
  induction a with
  | nil => simp [usedConns]
  | cons x xs ih => cases x <;> simp [usedConns, ih]

theorem closedConns_append (a b : List Event) :
    closedConns (a ++ b) = closedConns a ++ closedConns b := by
  induction a with
  | nil => simp [closedConns]
  | cons x xs ih => cases x <;> simp [closedConns, ih]

theorem yielded_append (a b : List Event) : yielded (a ++ b) = yielded a ++ yielded b := by
  induction a with
  | nil => simp [yielded]
  | cons x xs ih =>
    cases x with
    | newConn c err => cases c <;> simp [yielded, ih]
    | connDo c cmd args r err => simp [yielded, ih]
    | connClose c => simp [yielded, ih]
    | sleep n => simp [yielded, ih]

theorem lastConnDo_append_some (a b : List Event) (x : Result)
    (h : lastConnDo b = some x) : lastConnDo (a ++ b) = some x := by
  induction a with
  | nil => simpa using h
  | cons y ys ih => cases y <;> simp [lastConnDo, ih]

theorem lastConnDo_append_none (a b : List Event)
    (h : lastConnDo b = none) : lastConnDo (a ++ b) = lastConnDo a := by
  induction a with
  | nil => simpa [lastConnDo] using h
  | cons y ys ih => cases y <;> simp [lastConnDo, ih]

/-! ## C3: the retry bound -/

/-- One attempt when the factory always succeeds and `Conn.Do` always fails
with a transport error: the attempt returns that error, having used and closed
one connection, and no connection is held afterwards. -/
theorem do_always_transport {σ : Type} (impl : Conn σ) (cmd : String) (args : List Value)
    (cf : ConnFactory σ)
    (hfac : ∀ w, ∃ c w1, cf w = .ok ((some c, none), w1))
    (hdo : ∀ c w, ∃ r e w1, impl.Do c cmd args w = .ok ((r, some e), w1) ∧
      (isNetError (some e) = true ∨ e = Error.EOF))
    (hcl : ∀ c w, ∃ ce w1, impl.Close c w = .ok (ce, w1))
    (m : Machine σ) (hm : m.d.newConn = cf) :
    ∃ res m1 evs, Doer.do_ impl cmd args m = .ok (res, m1) ∧
      m1.d = { newConn := cf, c := none } ∧ m1.log = m.log ++ evs ∧
      connDoCalls evs = 1 ∧ closedConns evs = usedConns evs ∧
      lastConnDo evs = some res := by
  have key : ∃ c w1 pre, Reaches m c w1 pre ∧ connDoCalls pre = 0 ∧
      closedConns pre = [] ∧ usedConns pre = [] := by
    cases hc : m.d.c with
    | some c => exact ⟨c, m.w, [], Or.inl ⟨hc, rfl, rfl⟩, rfl, rfl, rfl⟩
    | none =>
      obtain ⟨c, w1, hf⟩ := hfac m.w
      exact ⟨c, w1, [Event.newConn (some c) none],
        Or.inr ⟨hc, by rw [hm]; exact hf, rfl⟩, rfl, rfl, rfl⟩
  obtain ⟨c, w1, pre, hreach, hp1, hp2, hp3⟩ := key
  obtain ⟨r, e, w2, hd, ht⟩ := hdo c w1
  obtain ⟨ce, w3, hc3⟩ := hcl c w2
  have h := do_drop impl cmd args m c r (some e) ce w1 w2 w3 pre hreach hd
    (dropsConn_transport e ht) hc3
  refine ⟨(r, some e), _, pre ++ [Event.connDo c cmd args r (some e), Event.connClose c],
    h, ?_, ?_, ?_, ?_, ?_⟩
  · simp [hm]
  · simp [List.append_assoc]
  · simp [connDoCalls_append, hp1, connDoCalls]
  · simp [closedConns_append, usedConns_append, hp2, hp3, closedConns, usedConns]
  · exact lastConnDo_append_some _ _ _ rfl

/-- The loop with `k + 1` iterations left, when every attempt drops the
connection after a transport error. -/
theorem DoLoop_always_transport {σ : Type} (impl : Conn σ) (cmd : String)
    (args : List Value) (cf : ConnFactory σ)
    (hfac : ∀ w, ∃ c w1, cf w = .ok ((some c, none), w1))
    (hdo : ∀ c w, ∃ r e w1, impl.Do c cmd args w = .ok ((r, some e), w1) ∧
      (isNetError (some e) = true ∨ e = Error.EOF))
    (hcl : ∀ c w, ∃ ce w1, impl.Close c w = .ok (ce, w1)) (k : Nat) :
    ∀ (n : Nat) (last : Result) (m : Machine σ), m.d.newConn = cf →
      ∃ res m1 evs, Doer.DoLoop impl cmd args (k + 1) n last m = .ok (res, m1) ∧
        m1.d = { newConn := cf, c := none } ∧ m1.log = m.log ++ evs ∧
        connDoCalls evs = k + 1 ∧ closedConns evs = usedConns evs ∧
        lastConnDo evs = some res := by
  induction k with
  | zero =>
    intro n last m hm
    obtain ⟨res, m1, evs, h, hd, hl, h1, h2, h3⟩ :=
      do_always_transport impl cmd args cf hfac hdo hcl m hm
    refine ⟨res, { d := m1.d, w := m1.w, log := m1.log ++ [Event.sleep n] },
      evs ++ [Event.sleep n], ?_, hd, ?_, ?_, ?_, ?_⟩
    · rw [DoLoop_retry impl cmd args 0 n last res m m1 h (by rw [hd])]
      rfl
    · simp [hl]
    · simp [connDoCalls_append, h1, connDoCalls]
    · simp [closedConns_append, usedConns_append, h2, closedConns, usedConns]
    · rw [lastConnDo_append_none evs [Event.sleep n] rfl]
      exact h3
  | succ k ih =>
    intro n last m hm
    obtain ⟨res, m1, evs, h, hd, hl, h1, h2, _⟩ :=
      do_always_transport impl cmd args cf hfac hdo hcl m hm
    obtain ⟨res2, m2, evs2, g, gd, gl, g1, g2, g3⟩ :=
      ih (n + 1) res { d := m1.d, w := m1.w, log := m1.log ++ [Event.sleep n] }
        (by simp [hd])
    refine ⟨res2, m2, evs ++ [Event.sleep n] ++ evs2, ?_, gd, ?_, ?_, ?_, ?_⟩
    · rw [DoLoop_retry impl cmd args (k + 1) n last res m m1 h (by rw [hd])]
      exact g
    · simp [gl, hl]
    · simp [connDoCalls_append, h1, g1, connDoCalls]
      omega
    · simp [closedConns_append, usedConns_append, h2, g2, closedConns, usedConns]
    · exact lastConnDo_append_some _ _ _ g3

/-- C3.  If the factory always succeeds and every `Conn.Do` returns a
transport error (a `net.Error` or `io.EOF`), then `Do` returns after exactly
5 `Conn.Do` invocations, each followed by `Conn.Close` on the connection it
used, holds no connection afterwards, and returns the reply and error of the
last (5th) `Conn.Do` invocation. -/
theorem retry_bound_transport {σ : Type} (impl : Conn σ) (cmd : String)
    (args : List Value) (m : Machine σ)
    (hfac : ∀ w, ∃ c w1, m.d.newConn w = .ok ((some c, none), w1))
    (hdo : ∀ c w, ∃ r e w1, impl.Do c cmd args w = .ok ((r, some e), w1) ∧
      (isNetError (some e) = true ∨ e = Error.EOF))
    (hcl : ∀ c w, ∃ ce w1, impl.Close c w = .ok (ce, w1)) :
    ∃ res m1 evs, Doer.Do impl cmd args m = .ok (res, m1) ∧
      m1.log = m.log ++ evs ∧ m1.d.c = none ∧
      connDoCalls evs = 5 ∧ (usedConns evs).length = 5 ∧
      closedConns evs = usedConns evs ∧ lastConnDo evs = some res := by
  obtain ⟨res, m1, evs, h, hd, hl, h1, h2, h3⟩ :=
    DoLoop_always_transport impl cmd args m.d.newConn hfac hdo hcl 4 0 (Value.nil, none) m rfl
  refine ⟨res, m1, evs, h, hl, by rw [hd], h1, ?_, h2, h3⟩
  have hlen : ∀ l : List Event, (usedConns l).length = connDoCalls l := by
    intro l
    induction l with
    | nil => rfl
    | cons x xs ih => cases x <;> simp [usedConns, connDoCalls, ih]
  rw [hlen, h1]

/-- C3 on a fresh `Doer` whose factory numbers its connections and whose
connections answer every command with `io.EOF`. -/
theorem retry_bound_transport_witness :
    ∃ res m1 evs,
      Doer.Do (constConn (Value.nil, some Error.EOF)) "GET" [Value.str "k"]
        (Machine.fresh countingFactory 0) = .ok (res, m1) ∧
      m1.log = (Machine.fresh countingFactory 0).log ++ evs ∧ m1.d.c = none ∧
      connDoCalls evs = 5 ∧ (usedConns evs).length = 5 ∧
      closedConns evs = usedConns evs ∧ lastConnDo evs = some res :=
  retry_bound_transport (constConn (Value.nil, some Error.EOF)) "GET" [Value.str "k"]
    (Machine.fresh countingFactory 0)
    (fun w => ⟨w, w + 1, rfl⟩)
    (fun _ w => ⟨Value.nil, Error.EOF, w, rfl, Or.inr rfl⟩)
    (fun _ w => ⟨none, w, rfl⟩)

/-! ## C4, C5: a factory that always fails -/

/-- The loop with `k` iterations left when the factory always fails with
`(nil, F)`: every iteration invokes the factory and sleeps. -/
theorem DoLoop_factory_always_fails {σ : Type} (impl : Conn σ) (cmd : String)
    (args : List Value) (cf : ConnFactory σ) (F : Error)
    (hfac : ∀ w, ∃ w1, cf w = .ok ((none, some F), w1)) (k : Nat) :
    ∀ (n : Nat) (last : Result) (m : Machine σ), m.d = { newConn := cf, c := none } →
      ∃ m1, Doer.DoLoop impl cmd args (k + 1) n last m = .ok ((Value.nil, some F), m1) ∧
        m1.d = { newConn := cf, c := none } ∧ m1.log = m.log ++ failLog F (k + 1) n := by
  induction k with
  | zero =>
    intro n last m hm
    obtain ⟨w1, hf⟩ := hfac m.w
    have h := do_factory_error impl cmd args m none F w1 (by rw [hm]) (by rw [hm]; exact hf)
    rw [DoLoop_retry impl cmd args 0 n last _ m _ h rfl]
    refine ⟨_, rfl, ?_, ?_⟩
    · simp [hm]
    · simp [failLog]
  | succ k ih =>
    intro n last m hm
    obtain ⟨w1, hf⟩ := hfac m.w
    have h := do_factory_error impl cmd args m none F w1 (by rw [hm]) (by rw [hm]; exact hf)
    rw [DoLoop_retry impl cmd args (k + 1) n last _ m _ h rfl]
    obtain ⟨m2, g, gd, gl⟩ := ih (n + 1) (Value.nil, some F)
      { d := { newConn := m.d.newConn, c := none }, w := w1,
        log := m.log ++ [Event.newConn none (some F)] ++ [Event.sleep n] } (by simp [hm])
    refine ⟨m2, g, gd, ?_⟩
    rw [gl]
    simp [failLog]

/-- C4.  For a `Doer` holding no connection whose factory returns `(nil, F)`
on every invocation, `Do` returns `(nil, F)` and holds no connection; during
the call the factory is invoked exactly 5 times and neither `Conn.Do` nor
`Conn.Close` is invoked. -/
theorem factory_always_fails {σ : Type} (impl : Conn σ) (cmd : String)
    (args : List Value) (m : Machine σ) (F : Error) (hc : m.d.c = none)
    (hfac : ∀ w, ∃ w1, m.d.newConn w = .ok ((none, some F), w1)) :
    ∃ m1 evs, Doer.Do impl cmd args m = .ok ((Value.nil, some F), m1) ∧
      m1.d.c = none ∧ m1.log = m.log ++ evs ∧
      factoryCalls evs = 5 ∧ connDoCalls evs = 0 ∧ connCloseCalls evs = 0 := by
  obtain ⟨m1, h, hd, hl⟩ := DoLoop_factory_always_fails impl cmd args m.d.newConn F hfac 4 0
    (Value.nil, none) m (by obtain ⟨⟨f, c⟩, w, l⟩ := m; simp_all)
  exact ⟨m1, failLog F 5 0, h, by rw [hd], hl, rfl, rfl, rfl⟩

/-- C4 on a fresh `Doer` whose factory always reports "dial refused". -/
theorem factory_always_fails_witness :
    ∃ m1 evs,
      Doer.Do (constConn (Value.int 42, none)) "GET" [Value.str "k"]
        (Machine.fresh (constFactory (none, some (Error.other "dial refused"))) ()) =
        .ok ((Value.nil, some (Error.other "dial refused")), m1) ∧
      m1.d.c = none ∧ m1.log = [] ++ evs ∧
      factoryCalls evs = 5 ∧ connDoCalls evs = 0 ∧ connCloseCalls evs = 0 :=
  factory_always_fails (constConn (Value.int 42, none)) "GET" [Value.str "k"]
    (Machine.fresh (constFactory (none, some (Error.other "dial refused"))) ())
    (Error.other "dial refused") rfl (fun w => ⟨w, rfl⟩)

/-- C5 as stated fails: with a factory that always reports "dial refused", a
single `Do` call sleeps five times, for 0, 1, 2, 3 and 4 seconds, the last
sleep coming after the fifth factory invocation; its sleep durations are not
`[0, 1, 2, 3]`. -/
theorem backoff_whole_call_counterexample :
    ∃ res m1,
      Doer.Do (constConn (Value.int 42, none)) "GET" [Value.str "k"]
        (Machine.fresh (constFactory (none, some (Error.other "dial refused"))) ()) =
        .ok (res, m1) ∧
      sleeps m1.log = [0, 1, 2, 3, 4] ∧ sleeps m1.log ≠ [0, 1, 2, 3] :=
  ⟨_, _, rfl, rfl, by decide⟩

/-- C5, amended.  When the factory fails with `(nil, F)` on every invocation,
a single `Do` call logs exactly five factory invocations, each followed by a
sleep: 0, 1, 2 and 3 seconds between consecutive factory invocations, and 4
seconds after the fifth.  The sleep durations of the whole call are
`[0, 1, 2, 3, 4]`. -/
theorem backoff_schedule {σ : Type} (impl : Conn σ) (cmd : String)
    (args : List Value) (m : Machine σ) (F : Error) (hc : m.d.c = none)
    (hfac : ∀ w, ∃ w1, m.d.newConn w = .ok ((none, some F), w1)) :
    ∃ m1 evs, Doer.Do impl cmd args m = .ok ((Value.nil, some F), m1) ∧
      m1.log = m.log ++ evs ∧
      evs = [Event.newConn none (some F), Event.sleep 0,
             Event.newConn none (some F), Event.sleep 1,
             Event.newConn none (some F), Event.sleep 2,
             Event.newConn none (some F), Event.sleep 3,
             Event.newConn none (some F), Event.sleep 4] ∧
      sleeps evs = [0, 1, 2, 3, 4] := by
  obtain ⟨m1, h, _, hl⟩ := DoLoop_factory_always_fails impl cmd args m.d.newConn F hfac 4 0
    (Value.nil, none) m (by obtain ⟨⟨f, c⟩, w, l⟩ := m; simp_all)
  exact ⟨m1, failLog F 5 0, h, hl, rfl, rfl⟩

/-- C5, amended, on a fresh `Doer` whose factory always reports
"dial refused". -/
theorem backoff_schedule_witness :
    ∃ m1 evs,
      Doer.Do (constConn (Value.int 42, none)) "SET" [Value.str "k", Value.int 1]
        (Machine.fresh (constFactory (none, some (Error.net "dial refused"))) ()) =
        .ok ((Value.nil, some (Error.net "dial refused")), m1) ∧
      m1.log = [] ++ evs ∧
      evs = [Event.newConn none (some (Error.net "dial refused")), Event.sleep 0,
             Event.newConn none (some (Error.net "dial refused")), Event.sleep 1,
             Event.newConn none (some (Error.net "dial refused")), Event.sleep 2,
             Event.newConn none (some (Error.net "dial refused")), Event.sleep 3,
             Event.newConn none (some (Error.net "dial refused")), Event.sleep 4] ∧
      sleeps evs = [0, 1, 2, 3, 4] :=
  backoff_schedule (constConn (Value.int 42, none)) "SET" [Value.str "k", Value.int 1]
    (Machine.fresh (constFactory (none, some (Error.net "dial refused"))) ())
    (Error.net "dial refused") rfl (fun w => ⟨w, rfl⟩)

/-! ## C6: lazy connection, then reuse -/

/-- A `Do` call on a `Doer` holding `c`, when `Conn.Do` succeeds: the held
connection is used and kept. -/
theorem Do_held_success {σ : Type} (impl : Conn σ) (cmd : String) (args : List Value)
    (m : Machine σ) (c : ConnId) (v : Value) (w2 : σ) (hc : m.d.c = some c)
    (hdo : impl.Do c cmd args m.w = .ok ((v, none), w2)) :
    Doer.Do impl cmd args m =
      .ok ((v, none), { d := { newConn := m.d.newConn, c := some c }, w := w2,
                        log := m.log ++ [Event.connDo c cmd args v none] }) := by
  have h := do_keep impl cmd args m c v none m.w w2 [] (Or.inl ⟨hc, rfl, rfl⟩) hdo rfl
  rw [List.append_nil] at h
  exact DoLoop_return impl cmd args 4 0 _ _ m _ c h rfl

/-- Repeated `Do` calls on a `Doer` holding `c`, when every `Conn.Do`
succeeds with `v`. -/
theorem runCalls_held_success {σ : Type} (impl : Conn σ) (v : Value) (c : ConnId)
    (cf : ConnFactory σ)
    (hdo : ∀ c cmd args w, ∃ w1, impl.Do c cmd args w = .ok ((v, none), w1))
    (cmds : List (String × List Value)) :
    ∀ m : Machine σ, m.d = { newConn := cf, c := some c } →
      ∃ m1, runCalls impl (cmds.map (fun p => Call.Do p.1 p.2)) m =
          .ok (List.replicate cmds.length (v, none), m1) ∧
        m1.d = { newConn := cf, c := some c } ∧
        m1.log = m.log ++ cmds.map (fun p => Event.connDo c p.1 p.2 v none) := by
  induction cmds with
  | nil =>
    intro m hm
    exact ⟨m, rfl, hm, by simp⟩
  | cons p rest ih =>
    intro m hm
    obtain ⟨w1, hd⟩ := hdo c p.1 p.2 m.w
    have h := Do_held_success impl p.1 p.2 m c v w1 (by rw [hm]) hd
    obtain ⟨m2, g, gd, gl⟩ := ih
      { d := { newConn := m.d.newConn, c := some c }, w := w1,
        log := m.log ++ [Event.connDo c p.1 p.2 v none] } (by simp [hm])
    refine ⟨m2, ?_, gd, ?_⟩
    · simp only [List.map_cons, runCalls, h, g, List.length_cons, List.replicate_succ]
    · simp [gl]

theorem log_of_connDo_only (c : ConnId) (v : Value) (cmds : List (String × List Value)) :
    factoryCalls (cmds.map (fun p => Event.connDo c p.1 p.2 v none)) = 0 ∧
    connCloseCalls (cmds.map (fun p => Event.connDo c p.1 p.2 v none)) = 0 ∧
    sleeps (cmds.map (fun p => Event.connDo c p.1 p.2 v none)) = [] := by
  induction cmds with
  | nil => exact ⟨rfl, rfl, rfl⟩
  | cons p rest ih => simpa [factoryCalls, connCloseCalls, sleeps] using ih

/-- C6.  `New cf` holds no connection and has invoked nothing.  If the first
factory invocation succeeds with `c` and every `Conn.Do` returns `(v, nil)`,
then `n >= 1` `Do` calls in a row on the fresh `Doer` all return `(v, nil)`;
the log is one factory invocation followed by one `Conn.Do` on `c` per call,
so the factory is invoked once, during the first call, and there is no
`Conn.Close` and no sleep. -/
theorem lazy_connect_then_reuse {σ : Type} (impl : Conn σ) (cf : ConnFactory σ)
    (w0 w1 : σ) (c : ConnId) (v : Value) (cmds : List (String × List Value))
    (hn : 1 ≤ cmds.length)
    (hfac : cf w0 = .ok ((some c, none), w1))
    (hdo : ∀ c cmd args w, ∃ w2, impl.Do c cmd args w = .ok ((v, none), w2)) :
    (New cf).c = none ∧ (Machine.fresh cf w0).log = [] ∧
    ∃ m1, runCalls impl (cmds.map (fun p => Call.Do p.1 p.2)) (Machine.fresh cf w0) =
        .ok (List.replicate cmds.length (v, none), m1) ∧
      m1.d.c = some c ∧
      m1.log = Event.newConn (some c) none ::
        cmds.map (fun p => Event.connDo c p.1 p.2 v none) ∧
      factoryCalls m1.log = 1 ∧ connCloseCalls m1.log = 0 ∧ sleeps m1.log = [] := by
  refine ⟨rfl, rfl, ?_⟩
  cases cmds with
  | nil => simp at hn
  | cons p rest =>
    obtain ⟨w2, hd⟩ := hdo c p.1 p.2 w1
    have h1 := do_keep impl p.1 p.2 (Machine.fresh cf w0) c v none w1 w2
      [Event.newConn (some c) none] (Or.inr ⟨rfl, hfac, rfl⟩) hd rfl
    have h := DoLoop_return impl p.1 p.2 4 0 (Value.nil, none) _ _ _ c h1 rfl
    obtain ⟨m2, g, gd, gl⟩ := runCalls_held_success impl v c cf hdo rest
      { d := { newConn := cf, c := some c }, w := w2,
        log := [] ++ [Event.newConn (some c) none] ++ [Event.connDo c p.1 p.2 v none] } rfl
    have hl : m2.log = Event.newConn (some c) none ::
        (p :: rest).map (fun p => Event.connDo c p.1 p.2 v none) := by
      simp [gl]
    obtain ⟨k1, k2, k3⟩ := log_of_connDo_only c v (p :: rest)
    refine ⟨m2, ?_, by rw [gd], hl, ?_, ?_, ?_⟩
    · have h0 : Doer.Do impl p.1 p.2 (Machine.fresh cf w0) = _ := h
      simp only [List.map_cons, runCalls, h0, List.length_cons, List.replicate_succ]
      simp only [Machine.fresh, New] at g ⊢
      rw [g]
    · rw [hl]
      exact congrArg (· + 1) k1
    · rw [hl]
      exact k2
    · rw [hl]
      exact k3

/-- C6 for three `GET` calls answered with 42 by the connection numbered 0. -/
theorem lazy_connect_then_reuse_witness :
    (New countingFactory).c = none ∧ (Machine.fresh countingFactory 0).log = [] ∧
    ∃ m1, runCalls (constConn (Value.int 42, none))
          ([("GET", [Value.str "k"]), ("GET", [Value.str "k"]), ("GET", [])].map
            (fun p => Call.Do p.1 p.2))
          (Machine.fresh countingFactory 0) =
        .ok (List.replicate
          [("GET", [Value.str "k"]), ("GET", [Value.str "k"]), ("GET", [])].length
          (Value.int 42, none), m1) ∧
      m1.d.c = some 0 ∧
      m1.log = Event.newConn (some 0) none ::
        [("GET", [Value.str "k"]), ("GET", [Value.str "k"]), ("GET", [])].map
          (fun p => Event.connDo 0 p.1 p.2 (Value.int 42) none) ∧
      factoryCalls m1.log = 1 ∧ connCloseCalls m1.log = 0 ∧ sleeps m1.log = [] :=
  lazy_connect_then_reuse (constConn (Value.int 42, none)) countingFactory 0 1 0
    (Value.int 42) [("GET", [Value.str "k"]), ("GET", [Value.str "k"]), ("GET", [])]
    (by decide) rfl (fun _ _ _ w => ⟨w, rfl⟩)

/-! ## Every run is a sequence of actions -/

theorem Steps.trans {h0 h1 h2 : Option ConnId} {l0 l1 l2 : List Event}
    (a : Steps h0 l0 h1 l1) (b : Steps h1 l1 h2 l2) : Steps h0 l0 h2 l2 := by
  induction b with
  | refl => exact a
  | snoc _ s ih => exact Steps.snoc ih s

theorem Steps.one {h0 h1 : Option ConnId} {l0 l1 : List Event}
    (s : Step h0 l0 h1 l1) : Steps h0 l0 h1 l1 :=
  Steps.snoc Steps.refl s

theorem Close_steps {σ : Type} (impl : Conn σ) (m m1 : Machine σ)
    (h : Doer.Close impl m = .ok m1) :
    Steps m.d.c m.log m1.d.c m1.log ∧ m1.d.newConn = m.d.newConn ∧ m1.d.c = none := by
  unfold Doer.Close at h
  cases hc : m.d.c with
  | none =>
    rw [hc] at h
    simp only [Except.ok.injEq] at h
    subst h
    rw [hc]
    exact ⟨Steps.refl, rfl, rfl⟩
  | some c =>
    rw [hc] at h
    cases hcl : impl.Close c m.w with
    | error p => simp [hcl] at h
    | ok x =>
      simp only [hcl, Except.ok.injEq] at h
      subst h
      exact ⟨Steps.one (Step.close m.log c), rfl, rfl⟩

theorem callConn_steps {σ : Type} (impl : Conn σ) (cmd : String) (args : List Value)
    (m m1 : Machine σ) (res : Result) (h : Doer.callConn impl cmd args m = .ok (res, m1)) :
    Steps m.d.c m.log m1.d.c m1.log ∧ m1.d.newConn = m.d.newConn ∧
      m.d.c.isSome = true := by
  unfold Doer.callConn at h
  cases hc : m.d.c with
  | none => simp [hc] at h
  | some c =>
    rw [hc] at h
    cases hd : impl.Do c cmd args m.w with
    | error p => simp [hd] at h
    | ok x =>
      obtain ⟨⟨r, err⟩, w1⟩ := x
      simp only [hd] at h
      have s1 : Steps (some c) m.log (some c) (m.log ++ [Event.connDo c cmd args r err]) :=
        Steps.one (Step.call m.log c cmd args r err)
      cases hk : dropsConn err with
      | false =>
        simp only [hk, Bool.false_eq_true, if_false, Except.ok.injEq, Prod.mk.injEq] at h
        obtain ⟨_, h⟩ := h
        subst h
        exact ⟨by simpa [hc] using s1, rfl, rfl⟩
      | true =>
        simp only [hk, if_true] at h
        cases hcl : Doer.Close impl
            { d := m.d, w := w1, log := m.log ++ [Event.connDo c cmd args r err] } with
        | error p => simp [hcl] at h
        | ok m2 =>
          simp only [hcl, Except.ok.injEq, Prod.mk.injEq] at h
          obtain ⟨_, h⟩ := h
          subst h
          obtain ⟨s2, hn, _⟩ := Close_steps impl _ _ hcl
          simp only [hc] at s2
          exact ⟨Steps.trans s1 s2, hn, rfl⟩

theorem do_steps {σ : Type} (impl : Conn σ) (cmd : String) (args : List Value)
    (m m1 : Machine σ) (res : Result) (h : Doer.do_ impl cmd args m = .ok (res, m1)) :
    Steps m.d.c m.log m1.d.c m1.log ∧ m1.d.newConn = m.d.newConn := by
  unfold Doer.do_ at h
  cases hc : m.d.c with
  | some c =>
    simp only [hc] at h
    obtain ⟨s, hn, _⟩ := callConn_steps impl cmd args m m1 res h
    rw [hc] at s
    exact ⟨s, hn⟩
  | none =>
    simp only [hc] at h
    cases hf : m.d.newConn m.w with
    | error p => simp [hf] at h
    | ok x =>
      obtain ⟨⟨co, eo⟩, w1⟩ := x
      simp only [hf] at h
      have s1 : Steps none m.log co (m.log ++ [Event.newConn co eo]) :=
        Steps.one (Step.dial m.log co eo)
      cases eo with
      | some e =>
        simp only [Except.ok.injEq, Prod.mk.injEq] at h
        obtain ⟨_, h⟩ := h
        subst h
        exact ⟨s1, rfl⟩
      | none =>
        simp only at h
        obtain ⟨s2, hn, _⟩ := callConn_steps impl cmd args _ m1 res h
        exact ⟨Steps.trans s1 s2, hn⟩

theorem DoLoop_steps {σ : Type} (impl : Conn σ) (cmd : String) (args : List Value)
    (k : Nat) :
    ∀ (n : Nat) (last res : Result) (m m1 : Machine σ),
      Doer.DoLoop impl cmd args k n last m = .ok (res, m1) →
      Steps m.d.c m.log m1.d.c m1.log ∧ m1.d.newConn = m.d.newConn := by
  induction k with
  | zero =>
    intro n last res m m1 h
    simp only [Doer.DoLoop, Except.ok.injEq, Prod.mk.injEq] at h
    obtain ⟨_, h⟩ := h
    subst h
    exact ⟨Steps.refl, rfl⟩
  | succ k ih =>
    intro n last res m m1 h
    unfold Doer.DoLoop at h
    cases hd : Doer.do_ impl cmd args m with
    | error p => simp [hd] at h
    | ok x =>
      obtain ⟨res1, m2⟩ := x
      obtain ⟨s1, hn1⟩ := do_steps impl cmd args m m2 res1 hd
      simp only [hd] at h
      cases hc : m2.d.c with
      | some c =>
        simp only [hc, Except.ok.injEq, Prod.mk.injEq] at h
        obtain ⟨_, h⟩ := h
        subst h
        exact ⟨s1, hn1⟩
      | none =>
        simp only [hc] at h
        obtain ⟨s2, hn2⟩ := ih (n + 1) res1 res _ m1 h
        simp only [hc] at s2
        rw [hc] at s1
        exact ⟨Steps.trans (Steps.snoc s1 (Step.sleep m2.log n)) s2, hn2.trans hn1⟩

theorem Do_steps {σ : Type} (impl : Conn σ) (cmd : String) (args : List Value)
    (m m1 : Machine σ) (res : Result) (h : Doer.Do impl cmd args m = .ok (res, m1)) :
    Steps m.d.c m.log m1.d.c m1.log ∧ m1.d.newConn = m.d.newConn :=
  DoLoop_steps impl cmd args 5 0 (Value.nil, none) res m m1 h

theorem runCalls_steps {σ : Type} (impl : Conn σ) (calls : List Call) :
    ∀ (m m1 : Machine σ) (rs : List Result), runCalls impl calls m = .ok (rs, m1) →
      Steps m.d.c m.log m1.d.c m1.log ∧ m1.d.newConn = m.d.newConn := by
  induction calls with
  | nil =>
    intro m m1 rs h
    simp only [runCalls, Except.ok.injEq, Prod.mk.injEq] at h
    obtain ⟨_, h⟩ := h
    subst h
    exact ⟨Steps.refl, rfl⟩
  | cons call rest ih =>
    intro m m1 rs h
    cases call with
    | Do cmd args =>
      unfold runCalls at h
      cases hd : Doer.Do impl cmd args m with
      | error p => simp [hd] at h
      | ok x =>
        obtain ⟨res, m2⟩ := x
        simp only [hd] at h
        cases hr : runCalls impl rest m2 with
        | error p => simp [hr] at h
        | ok y =>
          obtain ⟨rs2, m3⟩ := y
          simp only [hr, Except.ok.injEq, Prod.mk.injEq] at h
          obtain ⟨_, h⟩ := h
          subst h
          obtain ⟨s1, hn1⟩ := Do_steps impl cmd args m m2 res hd
          obtain ⟨s2, hn2⟩ := ih m2 m3 rs2 hr
          exact ⟨Steps.trans s1 s2, hn2.trans hn1⟩
    | Close =>
      unfold runCalls at h
      cases hd : Doer.Close impl m with
      | error p => simp [hd] at h
      | ok m2 =>
        simp only [hd] at h
        obtain ⟨s1, hn1, _⟩ := Close_steps impl m m2 hd
        obtain ⟨s2, hn2⟩ := ih m2 m1 rs h
        exact ⟨Steps.trans s1 s2, hn2.trans hn1⟩

theorem Step_log {h0 h1 : Option ConnId} {l0 l1 : List Event} (s : Step h0 l0 h1 l1) :
    ∃ ev, l1 = l0 ++ [ev] := by
  cases s with
  | dial co eo => exact ⟨_, rfl⟩
  | call c cmd args r e => exact ⟨_, rfl⟩
  | close c => exact ⟨_, rfl⟩
  | sleep n => exact ⟨_, rfl⟩

theorem Steps_log {h0 h1 : Option ConnId} {l0 l1 : List Event} (s : Steps h0 l0 h1 l1) :
    ∃ evs, l1 = l0 ++ evs := by
  induction s with
  | refl => exact ⟨[], by simp⟩
  | snoc _ st ih =>
    obtain ⟨evs, he⟩ := ih
    obtain ⟨ev, hv⟩ := Step_log st
    exact ⟨evs ++ [ev], by rw [hv, he, List.append_assoc]⟩

/-! ## C8: Close -/

/-- C8.  `Close` on a `Doer` holding `c` invokes `Conn.Close` on `c` once and
leaves no connection held; on a `Doer` holding none it changes nothing.
Whenever it returns, no connection is held, the factory field is unchanged,
the factory was not invoked, and a second `Close` changes nothing; `Close`
followed by `Close` is the same computation as a single `Close`. -/
theorem Close_shutdown {σ : Type} (impl : Conn σ) (m : Machine σ) :
    (∀ c ce w1, m.d.c = some c → impl.Close c m.w = .ok (ce, w1) →
      Doer.Close impl m =
        .ok { d := { newConn := m.d.newConn, c := none }, w := w1,
              log := m.log ++ [Event.connClose c] }) ∧
    (m.d.c = none → Doer.Close impl m = .ok m) ∧
    (∀ m1, Doer.Close impl m = .ok m1 →
      m1.d.c = none ∧ m1.d.newConn = m.d.newConn ∧
      factoryCalls m1.log = factoryCalls m.log ∧ Doer.Close impl m1 = .ok m1) ∧
    (Doer.Close impl m >>= Doer.Close impl) = Doer.Close impl m := by
  have h1 : ∀ c ce w1, m.d.c = some c → impl.Close c m.w = .ok (ce, w1) →
      Doer.Close impl m =
        .ok { d := { newConn := m.d.newConn, c := none }, w := w1,
              log := m.log ++ [Event.connClose c] } := by
    intro c ce w1 hc hcl
    simp [Doer.Close, hc, hcl]
  have h2 : m.d.c = none → Doer.Close impl m = .ok m := by
    intro hc
    simp [Doer.Close, hc]
  have h3 : ∀ m1, Doer.Close impl m = .ok m1 →
      m1.d.c = none ∧ m1.d.newConn = m.d.newConn ∧
      factoryCalls m1.log = factoryCalls m.log ∧ Doer.Close impl m1 = .ok m1 := by
    intro m1 h
    cases hc : m.d.c with
    | none =>
      rw [h2 hc, Except.ok.injEq] at h
      subst h
      exact ⟨hc, rfl, rfl, h2 hc⟩
    | some c =>
      cases hcl : impl.Close c m.w with
      | error p => simp [Doer.Close, hc, hcl] at h
      | ok x =>
        rw [h1 c x.1 x.2 hc hcl, Except.ok.injEq] at h
        subst h
        refine ⟨rfl, rfl, ?_, ?_⟩
        · simp [factoryCalls_append, factoryCalls]
        · simp [Doer.Close]
  refine ⟨h1, h2, h3, ?_⟩
  cases h : Doer.Close impl m with
  | error p => rfl
  | ok m1 => exact (h3 m1 h).2.2.2

/-- C8 on a `Doer` holding connection 3. -/
theorem Close_shutdown_witness :
    Doer.Close (constConn (Value.int 42, none))
        { d := { newConn := countingFactory, c := some 3 }, w := 4,
          log := [Event.newConn (some 3) none] } =
      .ok { d := { newConn := countingFactory, c := none }, w := 4,
            log := [Event.newConn (some 3) none] ++ [Event.connClose 3] } :=
  (Close_shutdown (constConn (Value.int 42, none))
    { d := { newConn := countingFactory, c := some 3 }, w := 4,
      log := [Event.newConn (some 3) none] }).1 3 none 4 rfl rfl

/-! ## C9: a Doer can be used again after Close -/

theorem callConn_log {σ : Type} (impl : Conn σ) (cmd : String) (args : List Value)
    (m m1 : Machine σ) (res : Result) (h : Doer.callConn impl cmd args m = .ok (res, m1)) :
    ∃ c r e tail, m1.log = m.log ++ Event.connDo c cmd args r e :: tail := by
  unfold Doer.callConn at h
  cases hc : m.d.c with
  | none => simp [hc] at h
  | some c =>
    rw [hc] at h
    cases hd : impl.Do c cmd args m.w with
    | error p => simp [hd] at h
    | ok x =>
      obtain ⟨⟨r, err⟩, w1⟩ := x
      simp only [hd] at h
      cases hk : dropsConn err with
      | false =>
        simp only [hk, Bool.false_eq_true, if_false, Except.ok.injEq, Prod.mk.injEq] at h
        obtain ⟨_, h⟩ := h
        subst h
        exact ⟨c, r, err, [], rfl⟩
      | true =>
        simp only [hk, if_true] at h
        cases hcl : Doer.Close impl
            { d := m.d, w := w1, log := m.log ++ [Event.connDo c cmd args r err] } with
        | error p => simp [hcl] at h
        | ok m2 =>
          simp only [hcl, Except.ok.injEq, Prod.mk.injEq] at h
          obtain ⟨_, h⟩ := h
          subst h
          obtain ⟨s2, _, _⟩ := Close_steps impl _ _ hcl
          obtain ⟨evs, he⟩ := Steps_log s2
          exact ⟨c, r, err, evs, by rw [he]; simp⟩

theorem do_fresh_log {σ : Type} (impl : Conn σ) (cmd : String) (args : List Value)
    (m m1 : Machine σ) (res : Result) (hc : m.d.c = none)
    (h : Doer.do_ impl cmd args m = .ok (res, m1)) :
    ∃ co eo tail, m1.log = m.log ++ Event.newConn co eo :: tail ∧
      ∀ c e, tail.head? ≠ some (Event.newConn c e) := by
  unfold Doer.do_ at h
  simp only [hc] at h
  cases hf : m.d.newConn m.w with
  | error p => simp [hf] at h
  | ok x =>
    obtain ⟨⟨co, eo⟩, w1⟩ := x
    simp only [hf] at h
    cases eo with
    | some e =>
      simp only [Except.ok.injEq, Prod.mk.injEq] at h
      obtain ⟨_, h⟩ := h
      subst h
      exact ⟨co, some e, [], rfl, by simp⟩
    | none =>
      simp only at h
      obtain ⟨c, r, e, tail, ht⟩ := callConn_log impl cmd args _ m1 res h
      exact ⟨co, none, Event.connDo c cmd args r e :: tail, by rw [ht]; simp, by simp⟩

theorem Do_fresh_log {σ : Type} (impl : Conn σ) (cmd : String) (args : List Value)
    (m m1 : Machine σ) (res : Result) (hc : m.d.c = none)
    (h : Doer.Do impl cmd args m = .ok (res, m1)) :
    ∃ co eo tail, m1.log = m.log ++ Event.newConn co eo :: tail ∧
      ∀ c e, tail.head? ≠ some (Event.newConn c e) := by
  unfold Doer.Do Doer.DoLoop at h
  cases hd : Doer.do_ impl cmd args m with
  | error p => simp [hd] at h
  | ok x =>
    obtain ⟨res1, m2⟩ := x
    obtain ⟨co, eo, tail, hl, hh⟩ := do_fresh_log impl cmd args m m2 res1 hc hd
    simp only [hd] at h
    cases hc2 : m2.d.c with
    | some c =>
      simp only [hc2, Except.ok.injEq, Prod.mk.injEq] at h
      obtain ⟨_, h⟩ := h
      subst h
      exact ⟨co, eo, tail, hl, hh⟩
    | none =>
      simp only [hc2] at h
      obtain ⟨s, _⟩ := DoLoop_steps impl cmd args 4 1 res1 res _ m1 h
      obtain ⟨evs, he⟩ := Steps_log s
      refine ⟨co, eo, tail ++ Event.sleep 0 :: evs, ?_, ?_⟩
      · rw [he]
        simp [hl]
      · intro c e
        cases tail with
        | nil => simp
        | cons t ts => simpa using hh c e

/-- C9.  After `Close` has returned, every `Do` call that returns has begun
with a factory invocation, the only one of its first attempt.  If that
invocation succeeds with `c2` and `c2.Do` returns `(v, nil)`, then `Do`
returns `(v, nil)`, having executed the command on `c2`, and holds `c2`. -/
theorem reusable_after_Close {σ : Type} (impl : Conn σ) (cmd : String)
    (args : List Value) (m m1 : Machine σ) (hclose : Doer.Close impl m = .ok m1) :
    (∀ res m2, Doer.Do impl cmd args m1 = .ok (res, m2) →
      ∃ co eo tail, m2.log = m1.log ++ Event.newConn co eo :: tail ∧
        ∀ c e, tail.head? ≠ some (Event.newConn c e)) ∧
    (∀ c2 v w2 w3, m.d.newConn m1.w = .ok ((some c2, none), w2) →
      impl.Do c2 cmd args w2 = .ok ((v, none), w3) →
      Doer.Do impl cmd args m1 =
        .ok ((v, none), { d := { newConn := m.d.newConn, c := some c2 }, w := w3,
                          log := m1.log ++ [Event.newConn (some c2) none,
                                            Event.connDo c2 cmd args v none] })) := by
  obtain ⟨_, hn, hc⟩ := Close_steps impl m m1 hclose
  refine ⟨fun res m2 h => Do_fresh_log impl cmd args m1 m2 res hc h, ?_⟩
  intro c2 v w2 w3 hfac hdo
  have h1 := do_keep impl cmd args m1 c2 v none w2 w3 [Event.newConn (some c2) none]
    (Or.inr ⟨hc, by rw [hn]; exact hfac, rfl⟩) hdo rfl
  have h := DoLoop_return impl cmd args 4 0 (Value.nil, none) _ m1 _ c2 h1 rfl
  rw [hn] at h
  simpa [Doer.Do] using h

/-- C9 on a `Doer` holding connection 3: after `Close`, `Do` dials
connection 4 and runs the command on it. -/
theorem reusable_after_Close_witness :
    Doer.Do (constConn (Value.int 42, none)) "GET" [Value.str "k"]
        { d := { newConn := countingFactory, c := none }, w := 4,
          log := [Event.newConn (some 3) none] ++ [Event.connClose 3] } =
      .ok ((Value.int 42, none),
           { d := { newConn := countingFactory, c := some 4 }, w := 5,
             log := ([Event.newConn (some 3) none] ++ [Event.connClose 3]) ++
               [Event.newConn (some 4) none,
                Event.connDo 4 "GET" [Value.str "k"] (Value.int 42) none] }) :=
  (reusable_after_Close (constConn (Value.int 42, none)) "GET" [Value.str "k"]
    { d := { newConn := countingFactory, c := some 3 }, w := 4,
      log := [Event.newConn (some 3) none] }
    { d := { newConn := countingFactory, c := none }, w := 4,
      log := [Event.newConn (some 3) none] ++ [Event.connClose 3] } rfl).2
    4 (Value.int 42) 5 5 rfl rfl

/-! ## C7: at most one connection is outstanding -/

theorem snoc_eq_split {α : Type} (l pre post : List α) (ev x : α)
    (h : l ++ [ev] = pre ++ x :: post) :
    (post = [] ∧ pre = l ∧ x = ev) ∨
      ∃ post1, post = post1 ++ [ev] ∧ l = pre ++ x :: post1 := by
  rcases List.eq_nil_or_concat post with hp | ⟨post1, y, hp⟩
  · subst hp
    obtain ⟨h1, h2⟩ := List.append_inj' h rfl
    simp only [List.cons.injEq, and_true] at h2
    exact Or.inl ⟨rfl, h1.symm, h2.symm⟩
  · rw [List.concat_eq_append] at hp
    subst hp
    have h0 : l ++ [ev] = (pre ++ x :: post1) ++ [y] := by simpa using h
    obtain ⟨h1, h2⟩ := List.append_inj' h0 rfl
    simp only [List.cons.injEq, and_true] at h2
    subst h2
    exact Or.inr ⟨post1, rfl, h1⟩

theorem created_append (a b : List Event) : created (a ++ b) = created a + created b := by
  simp [created, yielded_append]

theorem FactoryIdle_snoc (l : List Event) (ev : Event) (h : FactoryIdle l)
    (hev : (∃ c e, ev = Event.newConn c e) → created l = connCloseCalls l) :
    FactoryIdle (l ++ [ev]) := by
  intro pre c e post hsplit
  rcases snoc_eq_split l pre post ev (Event.newConn c e) hsplit with
    ⟨_, hpre, hx⟩ | ⟨post1, _, hl⟩
  · subst hpre
    exact hev ⟨c, e, hx.symm⟩
  · exact h pre c e post1 hl

/-- The invariant behind C7, on the pair of the held connection and the
log. -/
theorem Step_balance {h0 h1 : Option ConnId} {l0 l1 : List Event} (s : Step h0 l0 h1 l1)
    (hb : created l0 = connCloseCalls l0 + (if h0.isSome then 1 else 0))
    (hi : FactoryIdle l0) :
    created l1 = connCloseCalls l1 + (if h1.isSome then 1 else 0) ∧ FactoryIdle l1 := by
  cases s with
  | dial =>
    refine ⟨?_, FactoryIdle_snoc _ _ hi (fun _ => by simpa using hb)⟩
    cases h1 <;>
      simp_all [created, yielded_append, connCloseCalls_append, yielded, connCloseCalls]
  | call =>
    refine ⟨?_, FactoryIdle_snoc _ _ hi (fun ⟨_, _, hx⟩ => by cases hx)⟩
    simp_all [created, yielded_append, connCloseCalls_append, yielded, connCloseCalls]
  | close =>
    refine ⟨?_, FactoryIdle_snoc _ _ hi (fun ⟨_, _, hx⟩ => by cases hx)⟩
    simp_all [created, yielded_append, connCloseCalls_append, yielded, connCloseCalls]
  | sleep =>
    refine ⟨?_, FactoryIdle_snoc _ _ hi (fun ⟨_, _, hx⟩ => by cases hx)⟩
    simp_all [created, yielded_append, connCloseCalls_append, yielded, connCloseCalls]

theorem Steps_balance {h0 h1 : Option ConnId} {l0 l1 : List Event}
    (s : Steps h0 l0 h1 l1)
    (hb : created l0 = connCloseCalls l0 + (if h0.isSome then 1 else 0))
    (hi : FactoryIdle l0) :
    created l1 = connCloseCalls l1 + (if h1.isSome then 1 else 0) ∧ FactoryIdle l1 := by
  induction s with
  | refl => exact ⟨hb, hi⟩
  | snoc _ st ih => exact Step_balance st ih.1 ih.2

theorem FactoryIdle_nil : FactoryIdle [] := by
  intro pre c e post h
  cases pre <;> simp at h

/-! ### Runs return when the collaborators do -/

theorem Close_total {σ : Type} (impl : Conn σ)
    (hcl : ∀ c w, ∃ ce w1, impl.Close c w = .ok (ce, w1)) (m : Machine σ) :
    ∃ m1, Doer.Close impl m = .ok m1 := by
  cases hc : m.d.c with
  | none => exact ⟨m, by simp [Doer.Close, hc]⟩
  | some c =>
    obtain ⟨ce, w1, h⟩ := hcl c m.w
    exact ⟨{ d := { newConn := m.d.newConn, c := none }, w := w1,
             log := m.log ++ [Event.connClose c] }, by simp [Doer.Close, hc, h]⟩

theorem callConn_total {σ : Type} (impl : Conn σ)
    (hdo : ∀ c cmd args w, ∃ res w1, impl.Do c cmd args w = .ok (res, w1))
    (hcl : ∀ c w, ∃ ce w1, impl.Close c w = .ok (ce, w1))
    (cmd : String) (args : List Value) (m : Machine σ) (c : ConnId) (hc : m.d.c = some c) :
    ∃ res m1, Doer.callConn impl cmd args m = .ok (res, m1) := by
  obtain ⟨⟨r, err⟩, w1, hd⟩ := hdo c cmd args m.w
  cases hk : dropsConn err with
  | false => exact ⟨_, _, callConn_keep impl cmd args m c r err w1 hc hd hk⟩
  | true =>
    obtain ⟨ce, w2, h2⟩ := hcl c w1
    exact ⟨_, _, callConn_drop impl cmd args m c r err ce w1 w2 hc hd hk h2⟩

theorem do_total {σ : Type} (impl : Conn σ) (cf : ConnFactory σ)
    (hfac : ∀ w, (∃ c w1, cf w = .ok ((some c, none), w1)) ∨
      (∃ e w1, cf w = .ok ((none, some e), w1)))
    (hdo : ∀ c cmd args w, ∃ res w1, impl.Do c cmd args w = .ok (res, w1))
    (hcl : ∀ c w, ∃ ce w1, impl.Close c w = .ok (ce, w1))
    (cmd : String) (args : List Value) (m : Machine σ) (hm : m.d.newConn = cf) :
    ∃ res m1, Doer.do_ impl cmd args m = .ok (res, m1) := by
  cases hc : m.d.c with
  | some c =>
    obtain ⟨res, m1, h⟩ := callConn_total impl hdo hcl cmd args m c hc
    exact ⟨res, m1, by simpa [Doer.do_, hc] using h⟩
  | none =>
    rcases hfac m.w with ⟨c, w1, hf⟩ | ⟨e, w1, hf⟩
    · obtain ⟨res, m1, h⟩ := callConn_total impl hdo hcl cmd args
        { d := { newConn := m.d.newConn, c := some c }, w := w1,
          log := m.log ++ [Event.newConn (some c) none] } c rfl
      exact ⟨res, m1, by simpa [Doer.do_, hc, hm, hf] using h⟩
    · exact ⟨_, _, do_factory_error impl cmd args m none e w1 hc (by rw [hm]; exact hf)⟩

theorem DoLoop_total {σ : Type} (impl : Conn σ) (cf : ConnFactory σ)
    (hfac : ∀ w, (∃ c w1, cf w = .ok ((some c, none), w1)) ∨
      (∃ e w1, cf w = .ok ((none, some e), w1)))
    (hdo : ∀ c cmd args w, ∃ res w1, impl.Do c cmd args w = .ok (res, w1))
    (hcl : ∀ c w, ∃ ce w1, impl.Close c w = .ok (ce, w1))
    (cmd : String) (args : List Value) (k : Nat) :
    ∀ (n : Nat) (last : Result) (m : Machine σ), m.d.newConn = cf →
      ∃ res m1, Doer.DoLoop impl cmd args k n last m = .ok (res, m1) := by
  induction k with
  | zero =>
    intro n last m _
    exact ⟨last, m, rfl⟩
  | succ k ih =>
    intro n last m hm
    obtain ⟨res, m1, h⟩ := do_total impl cf hfac hdo hcl cmd args m hm
    cases hc : m1.d.c with
    | some c => exact ⟨res, m1, DoLoop_return impl cmd args k n last res m m1 c h hc⟩
    | none =>
      obtain ⟨res2, m2, g⟩ := ih (n + 1) res
        { d := m1.d, w := m1.w, log := m1.log ++ [Event.sleep n] }
        ((do_steps impl cmd args m m1 res h).2.trans hm)
      exact ⟨res2, m2, by rw [DoLoop_retry impl cmd args k n last res m m1 h hc]; exact g⟩

theorem runCalls_total {σ : Type} (impl : Conn σ) (cf : ConnFactory σ)
    (hfac : ∀ w, (∃ c w1, cf w = .ok ((some c, none), w1)) ∨
      (∃ e w1, cf w = .ok ((none, some e), w1)))
    (hdo : ∀ c cmd args w, ∃ res w1, impl.Do c cmd args w = .ok (res, w1))
    (hcl : ∀ c w, ∃ ce w1, impl.Close c w = .ok (ce, w1)) (calls : List Call) :
    ∀ m : Machine σ, m.d.newConn = cf →
      ∃ rs m1, runCalls impl calls m = .ok (rs, m1) := by
  induction calls with
  | nil =>
    intro m _
    exact ⟨[], m, rfl⟩
  | cons call rest ih =>
    intro m hm
    cases call with
    | Do cmd args =>
      obtain ⟨res, m1, h⟩ := DoLoop_total impl cf hfac hdo hcl cmd args 5 0 (Value.nil, none) m hm
      have h0 : Doer.Do impl cmd args m = .ok (res, m1) := h
      obtain ⟨rs, m2, g⟩ := ih m1 ((Do_steps impl cmd args m m1 res h0).2.trans hm)
      exact ⟨res :: rs, m2, by simp [runCalls, h0, g]⟩
    | Close =>
      obtain ⟨m1, h⟩ := Close_total impl hcl m
      obtain ⟨rs, m2, g⟩ := ih m1 ((Close_steps impl m m1 h).2.1.trans hm)
      exact ⟨rs, m2, by simp [runCalls, h, g]⟩

theorem runCalls_then_Close {σ : Type} (impl : Conn σ) (calls : List Call) :
    ∀ (m m1 m2 : Machine σ) (rs : List Result), runCalls impl calls m = .ok (rs, m1) →
      Doer.Close impl m1 = .ok m2 →
      runCalls impl (calls ++ [Call.Close]) m = .ok (rs, m2) := by
  induction calls with
  | nil =>
    intro m m1 m2 rs h hcl
    simp only [runCalls, Except.ok.injEq, Prod.mk.injEq] at h
    obtain ⟨h1, h2⟩ := h
    subst h1 h2
    simp [runCalls, hcl]
  | cons call rest ih =>
    intro m m1 m2 rs h hcl
    cases call with
    | Do cmd args =>
      simp only [runCalls, List.cons_append] at h ⊢
      cases hd : Doer.Do impl cmd args m with
      | error p => simp [hd] at h
      | ok x =>
        obtain ⟨res, m3⟩ := x
        simp only [hd] at h ⊢
        cases hr : runCalls impl rest m3 with
        | error p => simp [hr] at h
        | ok y =>
          obtain ⟨rs2, m4⟩ := y
          simp only [hr, Except.ok.injEq, Prod.mk.injEq] at h
          obtain ⟨h1, h2⟩ := h
          subst h1 h2
          have e := ih m3 m4 m2 rs2 hr hcl
          simp [e]
    | Close =>
      simp only [runCalls, List.cons_append] at h ⊢
      cases hd : Doer.Close impl m with
      | error p => simp [hd] at h
      | ok m3 =>
        simp only [hd] at h ⊢
        exact ih m3 m1 m2 rs h hcl

/-- C7.  Let the factory return, on each invocation, either a connection and
no error or no connection and an error, and let `Conn.Do` and `Conn.Close`
always return.  Then every finite sequence of `Do` and `Close` calls on a
fresh `Doer` returns, and afterwards the number of connections produced is
the number of `Conn.Close` invocations plus 1 if a connection is held, plus 0
if none is; at every factory invocation in the log the two numbers were
equal, so the factory is never invoked while a connection is outstanding;
and after one more `Close` the number produced equals the number closed.
Since this holds for every sequence, it holds after every call of a
sequence. -/
theorem single_connection_invariant {σ : Type} (impl : Conn σ) (cf : ConnFactory σ)
    (w0 : σ) (calls : List Call)
    (hfac : ∀ w, (∃ c w1, cf w = .ok ((some c, none), w1)) ∨
      (∃ e w1, cf w = .ok ((none, some e), w1)))
    (hdo : ∀ c cmd args w, ∃ res w1, impl.Do c cmd args w = .ok (res, w1))
    (hcl : ∀ c w, ∃ ce w1, impl.Close c w = .ok (ce, w1)) :
    ∃ rs m1, runCalls impl calls (Machine.fresh cf w0) = .ok (rs, m1) ∧
      created m1.log = connCloseCalls m1.log + (if m1.d.c.isSome then 1 else 0) ∧
      FactoryIdle m1.log ∧
      ∃ m2, runCalls impl (calls ++ [Call.Close]) (Machine.fresh cf w0) = .ok (rs, m2) ∧
        m2.d.c = none ∧ created m2.log = connCloseCalls m2.log := by
  obtain ⟨rs, m1, h⟩ := runCalls_total impl cf hfac hdo hcl calls (Machine.fresh cf w0) rfl
  obtain ⟨s1, _⟩ := runCalls_steps impl calls _ m1 rs h
  obtain ⟨hb, hi⟩ := Steps_balance s1 rfl FactoryIdle_nil
  obtain ⟨m2, h2⟩ := Close_total impl hcl m1
  obtain ⟨s2, _, hc2⟩ := Close_steps impl m1 m2 h2
  obtain ⟨hb2, _⟩ := Steps_balance s2 hb hi
  refine ⟨rs, m1, h, hb, hi, m2, runCalls_then_Close impl calls _ m1 m2 rs h h2, hc2, ?_⟩
  simpa [hc2] using hb2

/-- C7 for `Do, Close, Do` on a fresh `Doer` whose factory numbers its
connections and whose connections answer every command with `io.EOF`. -/
theorem single_connection_invariant_witness :
    ∃ rs m1,
      runCalls (constConn (Value.nil, some Error.EOF))
        [Call.Do "GET" [Value.str "k"], Call.Close, Call.Do "PING" []]
        (Machine.fresh countingFactory 0) = .ok (rs, m1) ∧
      created m1.log = connCloseCalls m1.log + (if m1.d.c.isSome then 1 else 0) ∧
      FactoryIdle m1.log ∧
      ∃ m2, runCalls (constConn (Value.nil, some Error.EOF))
          ([Call.Do "GET" [Value.str "k"], Call.Close, Call.Do "PING" []] ++ [Call.Close])
          (Machine.fresh countingFactory 0) = .ok (rs, m2) ∧
        m2.d.c = none ∧ created m2.log = connCloseCalls m2.log :=
  single_connection_invariant (constConn (Value.nil, some Error.EOF)) countingFactory 0
    [Call.Do "GET" [Value.str "k"], Call.Close, Call.Do "PING" []]
    (fun w => Or.inl ⟨w, w + 1, rfl⟩)
    (fun _ _ _ w => ⟨(Value.nil, some Error.EOF), w, rfl⟩)
    (fun _ w => ⟨none, w, rfl⟩)

/-! ## Closed connections, when every connection returned is new -/

theorem mem_closedConns (l : List Event) (c : ConnId) (h : Event.connClose c ∈ l) :
    c ∈ closedConns l := by
  induction l with
  | nil => simp at h
  | cons x xs ih =>
    rcases List.mem_cons.mp h with hx | hx
    · subst hx
      simp [closedConns]
    · cases x <;> simp [closedConns, ih hx]

theorem NoUseAfterClose_snoc (l : List Event) (ev : Event) (h : NoUseAfterClose l)
    (hev : ∀ c, ev.target = some c → c ∉ closedConns l) :
    NoUseAfterClose (l ++ [ev]) := by
  unfold NoUseAfterClose
  rw [List.pairwise_append]
  refine ⟨h, List.pairwise_singleton _ _, ?_⟩
  intro a ha b hb c hac htarget
  rw [List.mem_singleton] at hb
  subst hb hac
  exact hev c htarget (mem_closedConns l c ha)

/-- The invariant of closed connections: they came from the factory, the
held connection came from the factory and is not closed, no connection was
closed twice, and nothing was used after its close. -/
theorem Step_no_reuse {h0 h1 : Option ConnId} {l0 l1 : List Event} (s : Step h0 l0 h1 l1)
    (hfresh : (yielded l1).Nodup)
    (k1 : ∀ c ∈ closedConns l0, c ∈ yielded l0)
    (k2 : ∀ c, h0 = some c → c ∈ yielded l0 ∧ c ∉ closedConns l0)
    (k3 : (closedConns l0).Nodup) (k4 : NoUseAfterClose l0) :
    (∀ c ∈ closedConns l1, c ∈ yielded l1) ∧
    (∀ c, h1 = some c → c ∈ yielded l1 ∧ c ∉ closedConns l1) ∧
    (closedConns l1).Nodup ∧ NoUseAfterClose l1 := by
  cases s with
  | dial =>
    rename_i eo
    have hcl : closedConns (l0 ++ [Event.newConn h1 eo]) = closedConns l0 := by
      simp [closedConns_append, closedConns]
    refine ⟨?_, ?_, ?_, NoUseAfterClose_snoc _ _ k4 (fun c hc => by simp [Event.target] at hc)⟩
    · intro c hc
      rw [hcl] at hc
      rw [yielded_append]
      exact List.mem_append_left _ (k1 c hc)
    · intro c hc
      subst hc
      rw [hcl]
      rw [yielded_append] at hfresh ⊢
      simp only [yielded] at hfresh ⊢
      refine ⟨by simp, fun hmem => ?_⟩
      have hy := k1 c hmem
      have hd := (List.nodup_append.mp hfresh).2.2
      exact hd hy (List.mem_singleton_self c)
    · rw [hcl]
      exact k3
  | call =>
    rename_i c cmd args r e
    have hcl : closedConns (l0 ++ [Event.connDo c cmd args r e]) = closedConns l0 := by
      simp [closedConns_append, closedConns]
    have hy : yielded (l0 ++ [Event.connDo c cmd args r e]) = yielded l0 := by
      simp [yielded_append, yielded]
    rw [hcl, hy]
    refine ⟨k1, k2, k3, NoUseAfterClose_snoc _ _ k4 (fun c1 hc => ?_)⟩
    simp only [Event.target, Option.some.injEq] at hc
    subst hc
    exact (k2 c rfl).2
  | close =>
    rename_i c
    have hcl : closedConns (l0 ++ [Event.connClose c]) = closedConns l0 ++ [c] := by
      simp [closedConns_append, closedConns]
    have hy : yielded (l0 ++ [Event.connClose c]) = yielded l0 := by
      simp [yielded_append, yielded]
    rw [hcl, hy]
    refine ⟨?_, (fun c1 hc => by cases hc), ?_, NoUseAfterClose_snoc _ _ k4 (fun c1 hc => ?_)⟩
    · intro c1 hc1
      rcases List.mem_append.mp hc1 with hm | hm
      · exact k1 c1 hm
      · rw [List.mem_singleton] at hm
        subst hm
        exact (k2 c1 rfl).1
    · rw [List.nodup_append]
      refine ⟨k3, List.nodup_singleton c, ?_⟩
      intro a ha hb
      rw [List.mem_singleton] at hb
      subst hb
      exact (k2 a rfl).2 ha
    · simp only [Event.target, Option.some.injEq] at hc
      subst hc
      exact (k2 c rfl).2
  | sleep =>
    rename_i n
    have hcl : closedConns (l0 ++ [Event.sleep n]) = closedConns l0 := by
      simp [closedConns_append, closedConns]
    have hy : yielded (l0 ++ [Event.sleep n]) = yielded l0 := by
      simp [yielded_append, yielded]
    rw [hcl, hy]
    exact ⟨k1, (fun c hc => by cases hc), k3,
      NoUseAfterClose_snoc _ _ k4 (fun c hc => by simp [Event.target] at hc)⟩

theorem Steps_no_reuse {h0 h1 : Option ConnId} {l0 l1 : List Event}
    (s : Steps h0 l0 h1 l1) (hfresh : (yielded l1).Nodup)
    (k1 : ∀ c ∈ closedConns l0, c ∈ yielded l0)
    (k2 : ∀ c, h0 = some c → c ∈ yielded l0 ∧ c ∉ closedConns l0)
    (k3 : (closedConns l0).Nodup) (k4 : NoUseAfterClose l0) :
    (∀ c ∈ closedConns l1, c ∈ yielded l1) ∧
    (∀ c, h1 = some c → c ∈ yielded l1 ∧ c ∉ closedConns l1) ∧
    (closedConns l1).Nodup ∧ NoUseAfterClose l1 := by
  induction s with
  | refl => exact ⟨k1, k2, k3, k4⟩
  | snoc _ st ih =>
    obtain ⟨ev, hev⟩ := Step_log st
    have hpre := hfresh
    rw [hev, yielded_append] at hpre
    obtain ⟨j1, j2, j3, j4⟩ := ih (List.nodup_append.mp hpre).1
    exact Step_no_reuse st hfresh j1 j2 j3 j4

/-- What holds of closed connections when every connection value the factory
returns, with or without an error, is a new one (none is returned twice): in
every run of `Do` and `Close` calls on a fresh `Doer`, `Conn.Close` is
invoked at most once on each connection, and once `Conn.Close` has been
invoked on a connection neither `Conn.Do` nor `Conn.Close` is invoked on it
again. -/
theorem closed_connection_never_reused {σ : Type} (impl : Conn σ) (cf : ConnFactory σ)
    (w0 : σ) (calls : List Call) (rs : List Result) (m1 : Machine σ)
    (hrun : runCalls impl calls (Machine.fresh cf w0) = .ok (rs, m1))
    (hfresh : (yielded m1.log).Nodup) :
    (closedConns m1.log).Nodup ∧ NoUseAfterClose m1.log := by
  obtain ⟨s, _⟩ := runCalls_steps impl calls _ m1 rs hrun
  obtain ⟨_, _, j3, j4⟩ := Steps_no_reuse s hfresh
    (fun c hc => by cases hc) (fun c hc => by cases hc) List.nodup_nil List.Pairwise.nil
  exact ⟨j3, j4⟩

/-- A run with three new connections: connection 1 fails with `io.EOF` and
is closed, connection 2 serves the retry, a `Close` closes it, and a last
`Do` runs on connection 3. -/
theorem closed_connection_never_reused_witness :
    ∃ rs m1,
      runCalls Script.conn [Call.Do "SET" [Value.str "k"], Call.Close, Call.Do "GET" []]
        (Machine.fresh Script.factory
          { dials := [(some 1, none), (some 2, none), (some 3, none)],
            replies := [(Value.nil, some Error.EOF), (Value.str "OK", none),
                        (Value.int 7, none)] }) = .ok (rs, m1) ∧
      m1.log = [Event.newConn (some 1) none,
                Event.connDo 1 "SET" [Value.str "k"] Value.nil (some Error.EOF),
                Event.connClose 1, Event.sleep 0, Event.newConn (some 2) none,
                Event.connDo 2 "SET" [Value.str "k"] (Value.str "OK") none,
                Event.connClose 2, Event.newConn (some 3) none,
                Event.connDo 3 "GET" [] (Value.int 7) none] ∧
      (yielded m1.log).Nodup ∧ (closedConns m1.log).Nodup ∧ NoUseAfterClose m1.log :=
  ⟨_, _, rfl, rfl, by decide,
    closed_connection_never_reused Script.conn Script.factory
      { dials := [(some 1, none), (some 2, none), (some 3, none)],
        replies := [(Value.nil, some Error.EOF), (Value.str "OK", none),
                    (Value.int 7, none)] }
      [Call.Do "SET" [Value.str "k"], Call.Close, Call.Do "GET" []] _ _ rfl (by decide)⟩

/-! ## C10: a closed connection is used again -/

/-- C10 at a factory whose only successful invocation yields connection 7
and whose next invocation returns connection 7 once more, together with the
error "dial refused".  Connection 7 answers the first command with `io.EOF`,
so the first `Do` closes it; the retry stores connection 7 again although the
factory reported an error, and `Do` returns that error.  The second `Do` then
invokes `Conn.Do` on connection 7, after `Conn.Close` was invoked on it, and
the final `Close` invokes `Conn.Close` on it a second time.  The successful
factory invocations yield pairwise distinct connections. -/
theorem closed_connection_reused_after_factory_error :
    ∃ rs m1,
      runCalls Script.conn
        [Call.Do "GET" [Value.str "k"], Call.Do "GET" [Value.str "k"], Call.Close]
        (Machine.fresh Script.factory
          { dials := [(some 7, none), (some 7, some (Error.other "dial refused"))],
            replies := [(Value.nil, some Error.EOF), (Value.int 1, none)] }) =
        .ok (rs, m1) ∧
      rs = [(Value.nil, some (Error.other "dial refused")), (Value.int 1, none)] ∧
      m1.log = [Event.newConn (some 7) none,
                Event.connDo 7 "GET" [Value.str "k"] Value.nil (some Error.EOF),
                Event.connClose 7, Event.sleep 0,
                Event.newConn (some 7) (some (Error.other "dial refused")),
                Event.connDo 7 "GET" [Value.str "k"] (Value.int 1) none,
                Event.connClose 7] ∧
      succeeded m1.log = [7] ∧ (succeeded m1.log).Nodup ∧
      closedConns m1.log = [7, 7] ∧ ¬ (closedConns m1.log).Nodup ∧
      ¬ NoUseAfterClose m1.log :=
  ⟨_, _, rfl, rfl, rfl, rfl, by decide, rfl, by decide,
    fun h => by
      simp only [NoUseAfterClose, Machine.fresh, New] at h
      have h1 := List.rel_of_pairwise_cons (List.Pairwise.of_cons (List.Pairwise.of_cons h))
        (List.mem_cons_of_mem _ (List.mem_cons_of_mem _ (List.mem_cons_self _ _)))
      exact h1 7 rfl rfl⟩

/-! ## What one attempt logs -/

theorem callConn_outcome {σ : Type} (impl : Conn σ) (cmd : String) (args : List Value)
    (m m1 : Machine σ) (r : Value) (err : Option Error)
    (h : Doer.callConn impl cmd args m = .ok ((r, err), m1)) :
    ∃ c tail, m.d.c = some c ∧
      m1.log = m.log ++ Event.connDo c cmd args r err :: tail ∧
      ((tail = [] ∧ m1.d.c = some c ∧ dropsConn err = false) ∨
       (tail = [Event.connClose c] ∧ m1.d.c = none ∧ dropsConn err = true)) := by
  unfold Doer.callConn at h
  cases hc : m.d.c with
  | none => simp [hc] at h
  | some c =>
    rw [hc] at h
    cases hd : impl.Do c cmd args m.w with
    | error p => simp [hd] at h
    | ok x =>
      obtain ⟨⟨r1, err1⟩, w1⟩ := x
      simp only [hd] at h
      cases hk : dropsConn err1 with
      | false =>
        simp only [hk, Bool.false_eq_true, if_false, Except.ok.injEq, Prod.mk.injEq] at h
        obtain ⟨⟨hr, he⟩, h⟩ := h
        subst hr he h
        exact ⟨c, [], rfl, rfl, Or.inl ⟨rfl, hc, hk⟩⟩
      | true =>
        simp only [hk, if_true] at h
        unfold Doer.Close at h
        simp only [hc] at h
        cases hcl : impl.Close c w1 with
        | error p => simp [hcl] at h
        | ok y =>
          simp only [hcl, Except.ok.injEq, Prod.mk.injEq] at h
          obtain ⟨⟨hr, he⟩, h⟩ := h
          subst hr he h
          exact ⟨c, [Event.connClose c], rfl, by simp, Or.inr ⟨rfl, rfl, hk⟩⟩

theorem dropsConn_true_ne_none (err : Option Error) (h : dropsConn err = true) :
    err ≠ none := by
  intro he
  subst he
  simp [dropsConn, isNetError] at h

/-- Everything one attempt does, read off its result: the shape of what it
logs, that an attempt ending without a connection returns a non-nil error,
and that an attempt returning a nil error got it from `Conn.Do` and keeps
the connection. -/
theorem do_outcome {σ : Type} (impl : Conn σ) (cmd : String) (args : List Value)
    (m m1 : Machine σ) (r : Value) (err : Option Error)
    (h : Doer.do_ impl cmd args m = .ok ((r, err), m1)) :
    ∃ evs, m1.log = m.log ++ evs ∧ AttemptLog cmd args evs ∧
      (m1.d.c = none → err ≠ none) ∧
      (err = none → lastConnDo evs = some (r, none) ∧ m1.d.c.isSome = true) := by
  unfold Doer.do_ at h
  cases hc : m.d.c with
  | some c0 =>
    simp only [hc] at h
    obtain ⟨c, tail, _, hl, hcase⟩ := callConn_outcome impl cmd args m m1 r err h
    refine ⟨Event.connDo c cmd args r err :: tail, hl,
      Or.inr ⟨[], c, r, err, tail, Or.inl rfl, ?_, rfl⟩, ?_, ?_⟩
    · rcases hcase with ⟨ht, _, _⟩ | ⟨ht, _, _⟩
      · exact Or.inl ht
      · exact Or.inr ht
    · intro hn
      rcases hcase with ⟨_, hs, _⟩ | ⟨_, _, hk⟩
      · rw [hs] at hn
        cases hn
      · exact dropsConn_true_ne_none err hk
    · intro he
      subst he
      rcases hcase with ⟨ht, hs, _⟩ | ⟨_, _, hk⟩
      · subst ht
        exact ⟨rfl, by rw [hs]; rfl⟩
      · simp [dropsConn, isNetError] at hk
  | none =>
    simp only [hc] at h
    cases hf : m.d.newConn m.w with
    | error p => simp [hf] at h
    | ok x =>
      obtain ⟨⟨co, eo⟩, w1⟩ := x
      simp only [hf] at h
      cases eo with
      | some e =>
        simp only [Except.ok.injEq, Prod.mk.injEq] at h
        obtain ⟨⟨_, he⟩, h⟩ := h
        subst he h
        exact ⟨[Event.newConn co (some e)], rfl, Or.inl ⟨co, e, rfl⟩,
          (fun _ => by simp), (fun hn => by cases hn)⟩
      | none =>
        simp only at h
        obtain ⟨c, tail, hheld, hl, hcase⟩ := callConn_outcome impl cmd args _ m1 r err h
        simp only at hheld hl
        subst hheld
        refine ⟨Event.newConn (some c) none :: Event.connDo c cmd args r err :: tail,
          by rw [hl]; simp,
          Or.inr ⟨[Event.newConn (some c) none], c, r, err, tail, Or.inr rfl, ?_, rfl⟩, ?_, ?_⟩
        · rcases hcase with ⟨ht, _, _⟩ | ⟨ht, _, _⟩
          · exact Or.inl ht
          · exact Or.inr ht
        · intro hn
          rcases hcase with ⟨_, hs, _⟩ | ⟨_, _, hk⟩
          · rw [hs] at hn
            cases hn
          · exact dropsConn_true_ne_none err hk
        · intro he
          subst he
          rcases hcase with ⟨ht, hs, _⟩ | ⟨_, _, hk⟩
          · subst ht
            exact ⟨rfl, by rw [hs]; rfl⟩
          · simp [dropsConn, isNetError] at hk

/-- What the shape of an attempt's log implies for the counts. -/
theorem AttemptLog_counts (cmd : String) (args : List Value) (evs : List Event)
    (h : AttemptLog cmd args evs) :
    sleeps evs = [] ∧ factoryCalls evs ≤ 1 ∧ connDoCalls evs ≤ 1 ∧
      1 ≤ factoryCalls evs + connDoCalls evs ∧
      ∀ c cmd1 args1 r e, Event.connDo c cmd1 args1 r e ∈ evs → cmd1 = cmd ∧ args1 = args := by
  rcases h with ⟨co, e, rfl⟩ | ⟨pre, c, r, err, tail, hp, ht, rfl⟩
  · simp [sleeps, factoryCalls, connDoCalls]
  · rcases hp with rfl | rfl <;> rcases ht with rfl | rfl <;>
      simp [sleeps, factoryCalls, connDoCalls] <;>
      exact fun _ _ _ _ _ _ h1 h2 _ _ => ⟨h1, h2⟩

/-! ## The loop, with its attempts counted -/

theorem DoLoop_eq_count {σ : Type} (impl : Conn σ) (cmd : String) (args : List Value)
    (k : Nat) :
    ∀ (n : Nat) (last : Result) (m : Machine σ),
      Doer.DoLoop impl cmd args k n last m =
        (Doer.DoLoopCount impl cmd args k n last m).map (fun x => (x.1, x.2.1)) := by
  induction k with
  | zero =>
    intro n last m
    rfl
  | succ k ih =>
    intro n last m
    unfold Doer.DoLoop Doer.DoLoopCount
    cases hd : Doer.do_ impl cmd args m with
    | error p => rfl
    | ok x =>
      obtain ⟨res, m1⟩ := x
      cases hc : m1.d.c with
      | some c => simp [hc, Except.map]
      | none =>
        simp only [hc]
        rw [ih]
        cases Doer.DoLoopCount impl cmd args k (n + 1) res
          { d := m1.d, w := m1.w, log := m1.log ++ [Event.sleep n] } with
        | error p => rfl
        | ok y => rfl

theorem Do_eq_count {σ : Type} (impl : Conn σ) (cmd : String) (args : List Value)
    (m : Machine σ) :
    Doer.Do impl cmd args m =
      (Doer.DoCount impl cmd args m).map (fun x => (x.1, x.2.1)) :=
  DoLoop_eq_count impl cmd args 5 0 (Value.nil, none) m

theorem Do_count_of_ok {σ : Type} (impl : Conn σ) (cmd : String) (args : List Value)
    (m m1 : Machine σ) (res : Result) (h : Doer.Do impl cmd args m = .ok (res, m1)) :
    ∃ a, Doer.DoCount impl cmd args m = .ok (res, m1, a) := by
  rw [Do_eq_count] at h
  cases hc : Doer.DoCount impl cmd args m with
  | error p => simp [hc, Except.map] at h
  | ok x =>
    obtain ⟨res1, m2, a⟩ := x
    simp only [hc, Except.map, Except.ok.injEq, Prod.mk.injEq] at h
    obtain ⟨h1, h2⟩ := h
    subst h1 h2
    exact ⟨a, rfl⟩

/-- The loop with `k` iterations left makes at most `k` attempts, at least
one if `k` is positive; it invokes the factory and `Conn.Do` at most once per
attempt, and `Conn.Do` only with the command and arguments of the call. -/
theorem DoLoopCount_spec {σ : Type} (impl : Conn σ) (cmd : String) (args : List Value)
    (k : Nat) :
    ∀ (n : Nat) (last res : Result) (m m1 : Machine σ) (a : Nat),
      Doer.DoLoopCount impl cmd args k n last m = .ok (res, m1, a) →
      ∃ evs, m1.log = m.log ++ evs ∧ a ≤ k ∧ (0 < k → 1 ≤ a) ∧
        factoryCalls evs ≤ a ∧ connDoCalls evs ≤ a ∧
        ∀ c cmd1 args1 r e, Event.connDo c cmd1 args1 r e ∈ evs →
          cmd1 = cmd ∧ args1 = args := by
  induction k with
  | zero =>
    intro n last res m m1 a h
    simp only [Doer.DoLoopCount, Except.ok.injEq, Prod.mk.injEq] at h
    obtain ⟨_, h1, h2⟩ := h
    subst h1 h2
    exact ⟨[], by simp, le_refl 0, (fun h0 => absurd h0 (lt_irrefl 0)), le_refl 0,
      le_refl 0, (fun _ _ _ _ _ hmem => by cases hmem)⟩
  | succ k ih =>
    intro n last res m m1 a h
    unfold Doer.DoLoopCount at h
    cases hd : Doer.do_ impl cmd args m with
    | error p => simp [hd] at h
    | ok x =>
      obtain ⟨⟨r1, e1⟩, m2⟩ := x
      obtain ⟨evs1, hl1, hshape, _, _⟩ := do_outcome impl cmd args m m2 r1 e1 hd
      obtain ⟨_, hf1, hd1, _, hp1⟩ := AttemptLog_counts cmd args evs1 hshape
      simp only [hd] at h
      cases hc : m2.d.c with
      | some c =>
        simp only [hc, Except.ok.injEq, Prod.mk.injEq] at h
        obtain ⟨_, h1, h2⟩ := h
        subst h1 h2
        exact ⟨evs1, hl1, by omega, (fun _ => le_refl 1), hf1, hd1, hp1⟩
      | none =>
        simp only [hc] at h
        cases hr : Doer.DoLoopCount impl cmd args k (n + 1) (r1, e1)
            { d := m2.d, w := m2.w, log := m2.log ++ [Event.sleep n] } with
        | error p => simp [hr] at h
        | ok y =>
          obtain ⟨res2, m3, a2⟩ := y
          simp only [hr, Except.ok.injEq, Prod.mk.injEq] at h
          obtain ⟨_, h1, h2⟩ := h
          subst h1 h2
          obtain ⟨evs2, hl2, ha, _, hf2, hd2, hp2⟩ := ih (n + 1) (r1, e1) res2 _ m3 a2 hr
          refine ⟨evs1 ++ Event.sleep n :: evs2, ?_, by omega, (fun _ => by omega), ?_, ?_, ?_⟩
          · rw [hl2]
            simp [hl1]
          · have : factoryCalls (evs1 ++ Event.sleep n :: evs2) =
                factoryCalls evs1 + factoryCalls evs2 := by
              rw [factoryCalls_append]
              rfl
            omega
          · have : connDoCalls (evs1 ++ Event.sleep n :: evs2) =
                connDoCalls evs1 + connDoCalls evs2 := by
              rw [connDoCalls_append]
              rfl
            omega
          · intro c cmd1 args1 r e hmem
            rcases List.mem_append.mp hmem with hm | hm
            · exact hp1 c cmd1 args1 r e hm
            · rcases List.mem_cons.mp hm with hm | hm
              · cases hm
              · exact hp2 c cmd1 args1 r e hm

/-! ## C11: the command and its arguments are handed on unchanged -/

/-- C11.  Every `Conn.Do` invocation that a `Do(cmd, args...)` call makes, on
the first attempt and on every retry, receives exactly `cmd` and `args`, for
every `cmd` and every `args`, the empty sequence included. -/
theorem command_pass_through {σ : Type} (impl : Conn σ) (cmd : String)
    (args : List Value) (m m1 : Machine σ) (res : Result)
    (h : Doer.Do impl cmd args m = .ok (res, m1)) :
    ∃ evs, m1.log = m.log ++ evs ∧
      ∀ c cmd1 args1 r e, Event.connDo c cmd1 args1 r e ∈ evs →
        cmd1 = cmd ∧ args1 = args := by
  obtain ⟨a, ha⟩ := Do_count_of_ok impl cmd args m m1 res h
  obtain ⟨evs, hl, _, _, _, _, hp⟩ :=
    DoLoopCount_spec impl cmd args 5 0 (Value.nil, none) res m m1 a ha
  exact ⟨evs, hl, hp⟩

/-- C11 for `PING` without arguments: the first connection answers with
`io.EOF`, the retry on the second connection succeeds. -/
theorem command_pass_through_witness :
    ∃ evs,
      ({ d := { newConn := Script.factory, c := some 2 },
         w := { dials := [], replies := [] },
         log := [Event.newConn (some 1) none,
                 Event.connDo 1 "PING" [] Value.nil (some Error.EOF),
                 Event.connClose 1, Event.sleep 0, Event.newConn (some 2) none,
                 Event.connDo 2 "PING" [] (Value.str "PONG") none] } : Machine Script).log =
        (Machine.fresh Script.factory
          { dials := [(some 1, none), (some 2, none)],
            replies := [(Value.nil, some Error.EOF), (Value.str "PONG", none)] }).log ++ evs ∧
      ∀ c cmd1 args1 r e, Event.connDo c cmd1 args1 r e ∈ evs →
        cmd1 = "PING" ∧ args1 = [] :=
  command_pass_through Script.conn "PING" []
    (Machine.fresh Script.factory
      { dials := [(some 1, none), (some 2, none)],
        replies := [(Value.nil, some Error.EOF), (Value.str "PONG", none)] })
    { d := { newConn := Script.factory, c := some 2 },
      w := { dials := [], replies := [] },
      log := [Event.newConn (some 1) none,
              Event.connDo 1 "PING" [] Value.nil (some Error.EOF),
              Event.connClose 1, Event.sleep 0, Event.newConn (some 2) none,
              Event.connDo 2 "PING" [] (Value.str "PONG") none] }
    (Value.str "PONG", none) rfl

/-! ## C14: the number of attempts is bounded -/

theorem do_total_any {σ : Type} (impl : Conn σ) (cf : ConnFactory σ)
    (hfac : ∀ w, ∃ co eo w1, cf w = .ok ((co, eo), w1) ∧ (co = none → eo ≠ none))
    (hdo : ∀ c cmd args w, ∃ res w1, impl.Do c cmd args w = .ok (res, w1))
    (hcl : ∀ c w, ∃ ce w1, impl.Close c w = .ok (ce, w1))
    (cmd : String) (args : List Value) (m : Machine σ) (hm : m.d.newConn = cf) :
    ∃ res m1, Doer.do_ impl cmd args m = .ok (res, m1) := by
  cases hc : m.d.c with
  | some c =>
    obtain ⟨res, m1, h⟩ := callConn_total impl hdo hcl cmd args m c hc
    exact ⟨res, m1, by simpa [Doer.do_, hc] using h⟩
  | none =>
    obtain ⟨co, eo, w1, hf, hne⟩ := hfac m.w
    cases eo with
    | some e =>
      exact ⟨_, _, do_factory_error impl cmd args m co e w1 hc (by rw [hm]; exact hf)⟩
    | none =>
      cases co with
      | none => exact absurd rfl (hne rfl)
      | some c =>
        obtain ⟨res, m1, h⟩ := callConn_total impl hdo hcl cmd args
          { d := { newConn := m.d.newConn, c := some c }, w := w1,
            log := m.log ++ [Event.newConn (some c) none] } c rfl
        exact ⟨res, m1, by simpa [Doer.do_, hc, hm, hf] using h⟩

theorem DoLoopCount_total {σ : Type} (impl : Conn σ) (cf : ConnFactory σ)
    (hfac : ∀ w, ∃ co eo w1, cf w = .ok ((co, eo), w1) ∧ (co = none → eo ≠ none))
    (hdo : ∀ c cmd args w, ∃ res w1, impl.Do c cmd args w = .ok (res, w1))
    (hcl : ∀ c w, ∃ ce w1, impl.Close c w = .ok (ce, w1))
    (cmd : String) (args : List Value) (k : Nat) :
    ∀ (n : Nat) (last : Result) (m : Machine σ), m.d.newConn = cf →
      ∃ res m1 a, Doer.DoLoopCount impl cmd args k n last m = .ok (res, m1, a) := by
  induction k with
  | zero =>
    intro n last m _
    exact ⟨last, m, 0, rfl⟩
  | succ k ih =>
    intro n last m hm
    obtain ⟨res, m1, h⟩ := do_total_any impl cf hfac hdo hcl cmd args m hm
    cases hc : m1.d.c with
    | some c => exact ⟨res, m1, 1, by simp [Doer.DoLoopCount, h, hc]⟩
    | none =>
      obtain ⟨res2, m2, a, g⟩ := ih (n + 1) res
        { d := m1.d, w := m1.w, log := m1.log ++ [Event.sleep n] }
        ((do_steps impl cmd args m m1 res h).2.trans hm)
      exact ⟨res2, m2, a + 1, by simp [Doer.DoLoopCount, h, hc, g]⟩

/-- C14.  Whatever the factory and the connections return (the factory any
pair other than a nil connection with a nil error, `Conn.Do` any reply and
error), a single `Do` call returns after at least 1 and at most 5 attempts;
it invokes the factory at most once per attempt and `Conn.Do` at most once
per attempt, hence each at most 5 times. -/
theorem bounded_retries {σ : Type} (impl : Conn σ) (cmd : String)
    (args : List Value) (m : Machine σ)
    (hfac : ∀ w, ∃ co eo w1, m.d.newConn w = .ok ((co, eo), w1) ∧ (co = none → eo ≠ none))
    (hdo : ∀ c cmd args w, ∃ res w1, impl.Do c cmd args w = .ok (res, w1))
    (hcl : ∀ c w, ∃ ce w1, impl.Close c w = .ok (ce, w1)) :
    ∃ res m1 a evs, Doer.DoCount impl cmd args m = .ok (res, m1, a) ∧
      Doer.Do impl cmd args m = .ok (res, m1) ∧ m1.log = m.log ++ evs ∧
      1 ≤ a ∧ a ≤ 5 ∧ factoryCalls evs ≤ a ∧ connDoCalls evs ≤ a ∧
      factoryCalls evs ≤ 5 ∧ connDoCalls evs ≤ 5 := by
  obtain ⟨res, m1, a, h⟩ := DoLoopCount_total impl m.d.newConn hfac hdo hcl cmd args 5 0
    (Value.nil, none) m rfl
  obtain ⟨evs, hl, ha, h1, hf, hd, _⟩ :=
    DoLoopCount_spec impl cmd args 5 0 (Value.nil, none) res m m1 a h
  have h0 : Doer.DoCount impl cmd args m = .ok (res, m1, a) := h
  refine ⟨res, m1, a, evs, h0, ?_, hl, h1 (by omega), ha, hf, hd, by omega, by omega⟩
  rw [Do_eq_count, h0]
  rfl

/-- C14 on a fresh `Doer` whose factory numbers its connections and whose
connections answer every command with `io.EOF`. -/
theorem bounded_retries_witness :
    ∃ res m1 a evs,
      Doer.DoCount (constConn (Value.nil, some Error.EOF)) "GET" [Value.str "k"]
        (Machine.fresh countingFactory 0) = .ok (res, m1, a) ∧
      Doer.Do (constConn (Value.nil, some Error.EOF)) "GET" [Value.str "k"]
        (Machine.fresh countingFactory 0) = .ok (res, m1) ∧
      m1.log = (Machine.fresh countingFactory 0).log ++ evs ∧
      1 ≤ a ∧ a ≤ 5 ∧ factoryCalls evs ≤ a ∧ connDoCalls evs ≤ a ∧
      factoryCalls evs ≤ 5 ∧ connDoCalls evs ≤ 5 :=
  bounded_retries (constConn (Value.nil, some Error.EOF)) "GET" [Value.str "k"]
    (Machine.fresh countingFactory 0)
    (fun w => ⟨some w, none, w + 1, rfl, fun h => by cases h⟩)
    (fun _ _ _ w => ⟨(Value.nil, some Error.EOF), w, rfl⟩)
    (fun _ w => ⟨none, w, rfl⟩)

/-! ## C15: success or a non-nil error -/

/-- The result of the loop with `k` iterations left.  When `k` is 0 the
loop is entered after an attempt that dropped the connection, whose error
`last.2` is non-nil. -/
theorem DoLoopCount_result {σ : Type} (impl : Conn σ) (cmd : String) (args : List Value)
    (k : Nat) :
    ∀ (n : Nat) (last : Result) (m m1 : Machine σ) (r : Value) (err : Option Error)
      (a : Nat), (k = 0 → last.2 ≠ none ∧ m.d.c = none) →
      Doer.DoLoopCount impl cmd args k n last m = .ok ((r, err), m1, a) →
      ∃ evs, m1.log = m.log ++ evs ∧ (m1.d.c = none → a = k ∧ err ≠ none) ∧
        (err = none → lastConnDo evs = some (r, none) ∧ m1.d.c.isSome = true) := by
  induction k with
  | zero =>
    intro n last m m1 r err a h0 h
    simp only [Doer.DoLoopCount, Except.ok.injEq, Prod.mk.injEq] at h
    obtain ⟨hlast, h1, h2⟩ := h
    subst h1 h2
    obtain ⟨hne, _⟩ := h0 rfl
    rw [hlast] at hne
    exact ⟨[], by simp, (fun _ => ⟨rfl, hne⟩), (fun he => absurd he hne)⟩
  | succ k ih =>
    intro n last m m1 r err a _ h
    unfold Doer.DoLoopCount at h
    cases hd : Doer.do_ impl cmd args m with
    | error p => simp [hd] at h
    | ok x =>
      obtain ⟨⟨r1, e1⟩, m2⟩ := x
      obtain ⟨evs1, hl1, _, hnone, hnil⟩ := do_outcome impl cmd args m m2 r1 e1 hd
      simp only [hd] at h
      cases hc : m2.d.c with
      | some c =>
        simp only [hc, Except.ok.injEq, Prod.mk.injEq] at h
        obtain ⟨⟨hr, he⟩, h1, h2⟩ := h
        subst hr he h1 h2
        refine ⟨evs1, hl1, (fun hn => ?_), hnil⟩
        rw [hc] at hn
        cases hn
      | none =>
        simp only [hc] at h
        cases hr : Doer.DoLoopCount impl cmd args k (n + 1) (r1, e1)
            { d := m2.d, w := m2.w, log := m2.log ++ [Event.sleep n] } with
        | error p => simp [hr] at h
        | ok y =>
          obtain ⟨⟨r2, e2⟩, m3, a2⟩ := y
          simp only [hr, Except.ok.injEq, Prod.mk.injEq] at h
          obtain ⟨⟨h3, h4⟩, h1, h2⟩ := h
          subst h3 h4 h1 h2
          obtain ⟨evs2, hl2, g1, g2⟩ := ih (n + 1) (r1, e1)
            { d := m2.d, w := m2.w, log := m2.log ++ [Event.sleep n] } m3 r2 e2 a2
            (fun _ => ⟨hnone hc, hc⟩) hr
          refine ⟨evs1 ++ Event.sleep n :: evs2, ?_, ?_, ?_⟩
          · rw [hl2]
            simp [hl1]
          · intro hn
            obtain ⟨q1, q2⟩ := g1 hn
            exact ⟨by omega, q2⟩
          · intro he
            obtain ⟨q1, q2⟩ := g2 he
            refine ⟨?_, q2⟩
            have : evs1 ++ Event.sleep n :: evs2 = (evs1 ++ [Event.sleep n]) ++ evs2 := by
              simp
            rw [this]
            exact lastConnDo_append_some _ _ _ q1

/-- C15.  Whenever `Do` returns: if no connection is held afterwards, then
all 5 attempts were made (each dropped the connection) and the returned error
is non-nil; and if the returned error is nil, then the last `Conn.Do`
invocation of the call returned that reply with a nil error, and a
connection is held.  A factory returning a nil connection with a nil error
makes the call panic, so it never gets to return. -/
theorem success_or_error {σ : Type} (impl : Conn σ) (cmd : String)
    (args : List Value) (m m1 : Machine σ) (r : Value) (err : Option Error)
    (h : Doer.Do impl cmd args m = .ok ((r, err), m1)) :
    ∃ a evs, Doer.DoCount impl cmd args m = .ok ((r, err), m1, a) ∧
      m1.log = m.log ++ evs ∧
      (m1.d.c = none → a = 5 ∧ err ≠ none) ∧
      (err = none → lastConnDo evs = some (r, none) ∧ m1.d.c.isSome = true) := by
  obtain ⟨a, ha⟩ := Do_count_of_ok impl cmd args m m1 (r, err) h
  obtain ⟨evs, hl, g1, g2⟩ :=
    DoLoopCount_result impl cmd args 5 0 (Value.nil, none) m m1 r err a
      (fun h5 => by cases h5) ha
  exact ⟨a, evs, ha, hl, g1, g2⟩

/-- C15 for a call in which the first connection answers with `io.EOF` and
the retry succeeds. -/
theorem success_or_error_witness :
    ∃ a evs,
      Doer.DoCount Script.conn "SET" [Value.str "k", Value.str "v"]
        (Machine.fresh Script.factory
          { dials := [(some 1, none), (some 2, none)],
            replies := [(Value.nil, some Error.EOF), (Value.str "OK", none)] }) =
        .ok ((Value.str "OK", none),
          { d := { newConn := Script.factory, c := some 2 },
            w := { dials := [], replies := [] },
            log := [Event.newConn (some 1) none,
              Event.connDo 1 "SET" [Value.str "k", Value.str "v"] Value.nil (some Error.EOF),
              Event.connClose 1, Event.sleep 0, Event.newConn (some 2) none,
              Event.connDo 2 "SET" [Value.str "k", Value.str "v"] (Value.str "OK") none] },
          a) ∧
      [Event.newConn (some 1) none,
        Event.connDo 1 "SET" [Value.str "k", Value.str "v"] Value.nil (some Error.EOF),
        Event.connClose 1, Event.sleep 0, Event.newConn (some 2) none,
        Event.connDo 2 "SET" [Value.str "k", Value.str "v"] (Value.str "OK") none] =
        [] ++ evs ∧
      ((some 2 : Option ConnId) = none → a = 5 ∧ (none : Option Error) ≠ none) ∧
      ((none : Option Error) = none →
        lastConnDo evs = some (Value.str "OK", none) ∧
        (some 2 : Option ConnId).isSome = true) :=
  success_or_error Script.conn "SET" [Value.str "k", Value.str "v"]
    (Machine.fresh Script.factory
      { dials := [(some 1, none), (some 2, none)],
        replies := [(Value.nil, some Error.EOF), (Value.str "OK", none)] })
    { d := { newConn := Script.factory, c := some 2 },
      w := { dials := [], replies := [] },
      log := [Event.newConn (some 1) none,
        Event.connDo 1 "SET" [Value.str "k", Value.str "v"] Value.nil (some Error.EOF),
        Event.connClose 1, Event.sleep 0, Event.newConn (some 2) none,
        Event.connDo 2 "SET" [Value.str "k", Value.str "v"] (Value.str "OK") none] }
    (Value.str "OK") none rfl

/-! ## C17: the first attempt that keeps the connection ends the call -/

theorem attemptStart_succ {σ : Type} (impl : Conn σ) (cmd : String) (args : List Value)
    (i n : Nat) (m m1 : Machine σ) (res : Result)
    (h : Doer.do_ impl cmd args m = .ok (res, m1)) :
    Doer.attemptStart impl cmd args (i + 1) n m =
      Doer.attemptStart impl cmd args i (n + 1)
        { d := m1.d, w := m1.w, log := m1.log ++ [Event.sleep n] } := by
  simp [Doer.attemptStart, h]

/-- The loop with `K` iterations left, when its first `k < K` attempts drop
the connection and the next one keeps it. -/
theorem DoLoopCount_attempts {σ : Type} (impl : Conn σ) (cmd : String)
    (args : List Value) (k : Nat) :
    ∀ (K n : Nat) (last res : Result) (m mk m1 : Machine σ) (c : ConnId), k < K →
      (∀ i, i < k → ∃ mi resi mi1, Doer.attemptStart impl cmd args i n m = .ok mi ∧
        Doer.do_ impl cmd args mi = .ok (resi, mi1) ∧ mi1.d.c = none) →
      Doer.attemptStart impl cmd args k n m = .ok mk →
      Doer.do_ impl cmd args mk = .ok (res, m1) → m1.d.c = some c →
      Doer.DoLoopCount impl cmd args K n last m = .ok (res, m1, k + 1) ∧
        ∃ evs, m1.log = m.log ++ evs ∧ sleeps evs = List.range' n k := by
  induction k with
  | zero =>
    intro K n last res m mk m1 c hK _ hstart hdo hc
    simp only [Doer.attemptStart, Except.ok.injEq] at hstart
    subst hstart
    obtain ⟨K1, rfl⟩ : ∃ K1, K = K1 + 1 := ⟨K - 1, by omega⟩
    obtain ⟨r, e⟩ := res
    obtain ⟨evs, hl, hshape, _, _⟩ := do_outcome impl cmd args m m1 r e hdo
    refine ⟨by simp [Doer.DoLoopCount, hdo, hc], evs, hl, ?_⟩
    simpa using (AttemptLog_counts cmd args evs hshape).1
  | succ k ih =>
    intro K n last res m mk m1 c hK hdrop hstart hdo hc
    obtain ⟨K1, rfl⟩ : ∃ K1, K = K1 + 1 := ⟨K - 1, by omega⟩
    obtain ⟨m0, res0, m01, h0, hd0, hc0⟩ := hdrop 0 (by omega)
    simp only [Doer.attemptStart, Except.ok.injEq] at h0
    subst h0
    obtain ⟨r0, e0⟩ := res0
    obtain ⟨evs1, hl1, hshape, _, _⟩ := do_outcome impl cmd args m m01 r0 e0 hd0
    rw [attemptStart_succ impl cmd args k n m m01 (r0, e0) hd0] at hstart
    obtain ⟨hcount, evs2, hl2, hs2⟩ := ih K1 (n + 1) (r0, e0) res
      { d := m01.d, w := m01.w, log := m01.log ++ [Event.sleep n] } mk m1 c (by omega)
      (fun i hi => by
        obtain ⟨mi, resi, mi1, g1, g2, g3⟩ := hdrop (i + 1) (by omega)
        rw [attemptStart_succ impl cmd args i n m m01 (r0, e0) hd0] at g1
        exact ⟨mi, resi, mi1, g1, g2, g3⟩)
      hstart hdo hc
    refine ⟨by simp [Doer.DoLoopCount, hd0, hc0, hcount], evs1 ++ Event.sleep n :: evs2, ?_, ?_⟩
    · rw [hl2]
      simp [hl1]
    · rw [sleeps_append, (AttemptLog_counts cmd args evs1 hshape).1]
      simp [sleeps, hs2, List.range'_succ]

/-- C17.  For `k <= 4`: if attempts `0 .. k-1` of a `Do` call each end with
no connection held and attempt `k` ends with a connection held, then `Do`
makes exactly `k + 1` attempts, returns exactly the reply and error of
attempt `k` (nil or not), and the sleeps of the call are exactly
`0, 1, ..., k-1` seconds. -/
theorem returns_first_kept_attempt {σ : Type} (impl : Conn σ) (cmd : String)
    (args : List Value) (m mk m1 : Machine σ) (k : Nat) (res : Result) (c : ConnId)
    (hk : k ≤ 4)
    (hdrop : ∀ i, i < k → ∃ mi resi mi1,
      Doer.attemptStart impl cmd args i 0 m = .ok mi ∧
      Doer.do_ impl cmd args mi = .ok (resi, mi1) ∧ mi1.d.c = none)
    (hstart : Doer.attemptStart impl cmd args k 0 m = .ok mk)
    (hdo : Doer.do_ impl cmd args mk = .ok (res, m1)) (hc : m1.d.c = some c) :
    Doer.DoCount impl cmd args m = .ok (res, m1, k + 1) ∧
      Doer.Do impl cmd args m = .ok (res, m1) ∧
      ∃ evs, m1.log = m.log ++ evs ∧ sleeps evs = List.range k := by
  obtain ⟨hcount, evs, hl, hs⟩ := DoLoopCount_attempts impl cmd args k 5 0
    (Value.nil, none) res m mk m1 c (by omega) hdrop hstart hdo hc
  have h0 : Doer.DoCount impl cmd args m = .ok (res, m1, k + 1) := hcount
  refine ⟨h0, ?_, evs, hl, ?_⟩
  · rw [Do_eq_count, h0]
    rfl
  · rw [hs, List.range_eq_range']

/-- C17 with `k = 1`: the first attempt ends with `io.EOF` and no connection,
the second keeps connection 2; there is a single sleep, of length zero. -/
theorem returns_first_kept_attempt_witness :
    Doer.DoCount Script.conn "SET" [Value.str "k"]
        (Machine.fresh Script.factory
          { dials := [(some 1, none), (some 2, none)],
            replies := [(Value.nil, some Error.EOF), (Value.str "OK", none)] }) =
        .ok ((Value.str "OK", none),
          { d := { newConn := Script.factory, c := some 2 },
            w := { dials := [], replies := [] },
            log := [Event.newConn (some 1) none,
              Event.connDo 1 "SET" [Value.str "k"] Value.nil (some Error.EOF),
              Event.connClose 1, Event.sleep 0, Event.newConn (some 2) none,
              Event.connDo 2 "SET" [Value.str "k"] (Value.str "OK") none] },
          1 + 1) ∧
      Doer.Do Script.conn "SET" [Value.str "k"]
        (Machine.fresh Script.factory
          { dials := [(some 1, none), (some 2, none)],
            replies := [(Value.nil, some Error.EOF), (Value.str "OK", none)] }) =
        .ok ((Value.str "OK", none),
          { d := { newConn := Script.factory, c := some 2 },
            w := { dials := [], replies := [] },
            log := [Event.newConn (some 1) none,
              Event.connDo 1 "SET" [Value.str "k"] Value.nil (some Error.EOF),
              Event.connClose 1, Event.sleep 0, Event.newConn (some 2) none,
              Event.connDo 2 "SET" [Value.str "k"] (Value.str "OK") none] }) ∧
      ∃ evs,
        [Event.newConn (some 1) none,
          Event.connDo 1 "SET" [Value.str "k"] Value.nil (some Error.EOF),
          Event.connClose 1, Event.sleep 0, Event.newConn (some 2) none,
          Event.connDo 2 "SET" [Value.str "k"] (Value.str "OK") none] = [] ++ evs ∧
        sleeps evs = List.range 1 :=
  returns_first_kept_attempt Script.conn "SET" [Value.str "k"]
    (Machine.fresh Script.factory
      { dials := [(some 1, none), (some 2, none)],
        replies := [(Value.nil, some Error.EOF), (Value.str "OK", none)] })
    { d := { newConn := Script.factory, c := none },
      w := { dials := [(some 2, none)], replies := [(Value.str "OK", none)] },
      log := [Event.newConn (some 1) none,
        Event.connDo 1 "SET" [Value.str "k"] Value.nil (some Error.EOF),
        Event.connClose 1, Event.sleep 0] }
    { d := { newConn := Script.factory, c := some 2 },
      w := { dials := [], replies := [] },
      log := [Event.newConn (some 1) none,
        Event.connDo 1 "SET" [Value.str "k"] Value.nil (some Error.EOF),
        Event.connClose 1, Event.sleep 0, Event.newConn (some 2) none,
        Event.connDo 2 "SET" [Value.str "k"] (Value.str "OK") none] }
    1 (Value.str "OK", none) 2 (by decide)
    (fun i hi =>
      match i, hi with
      | 0, _ => ⟨_, _, _, rfl, rfl, rfl⟩)
    rfl rfl rfl

/-! ## C18: a factory error that comes with a connection -/

/-- C18 at a factory that returns connection 7 together with the error
"dial refused": the attempt returns `(nil, error)` without invoking
`Conn.Do`, but the `Doer` holds connection 7 afterwards, so `Do` returns at
once after a single attempt, without backing off or retrying. -/
theorem factory_error_with_connection_is_kept :
    Doer.DoCount (constConn (Value.int 42, none)) "GET" [Value.str "k"]
        (Machine.fresh (constFactory (some 7, some (Error.other "dial refused"))) ()) =
      .ok ((Value.nil, some (Error.other "dial refused")),
        { d := { newConn := constFactory (some 7, some (Error.other "dial refused")),
                 c := some 7 },
          w := (),
          log := [Event.newConn (some 7) (some (Error.other "dial refused"))] },
        1) :=
  rfl

/-! ## C19: no method call through a nil connection -/

theorem Close_no_nilConn {σ : Type} (impl : Conn σ)
    (hcl : ∀ c w, impl.Close c w ≠ .error Panic.nilConn) (m : Machine σ) :
    Doer.Close impl m ≠ .error Panic.nilConn := by
  intro h
  unfold Doer.Close at h
  cases hc : m.d.c with
  | none => simp [hc] at h
  | some c =>
    rw [hc] at h
    cases hx : impl.Close c m.w with
    | error p =>
      simp only [hx, Except.error.injEq] at h
      subst h
      exact hcl c m.w hx
    | ok y => simp [hx] at h

theorem callConn_no_nilConn {σ : Type} (impl : Conn σ)
    (hdo : ∀ c cmd args w, impl.Do c cmd args w ≠ .error Panic.nilConn)
    (hcl : ∀ c w, impl.Close c w ≠ .error Panic.nilConn)
    (cmd : String) (args : List Value) (m : Machine σ) (c : ConnId) (hc : m.d.c = some c) :
    Doer.callConn impl cmd args m ≠ .error Panic.nilConn := by
  intro h
  unfold Doer.callConn at h
  rw [hc] at h
  cases hx : impl.Do c cmd args m.w with
  | error p =>
    simp only [hx, Except.error.injEq] at h
    subst h
    exact hdo c cmd args m.w hx
  | ok y =>
    obtain ⟨⟨r, err⟩, w1⟩ := y
    simp only [hx] at h
    cases hk : dropsConn err with
    | false => simp [hk] at h
    | true =>
      simp only [hk, if_true] at h
      cases hy : Doer.Close impl
          { d := m.d, w := w1, log := m.log ++ [Event.connDo c cmd args r err] } with
      | error p =>
        simp only [hy, Except.error.injEq] at h
        subst h
        exact Close_no_nilConn impl hcl _ hy
      | ok m2 => simp [hy] at h

theorem do_no_nilConn {σ : Type} (impl : Conn σ) (cf : ConnFactory σ)
    (hnil : ∀ w co w1, cf w = .ok ((co, none), w1) → co.isSome = true)
    (hcf : ∀ w, cf w ≠ .error Panic.nilConn)
    (hdo : ∀ c cmd args w, impl.Do c cmd args w ≠ .error Panic.nilConn)
    (hcl : ∀ c w, impl.Close c w ≠ .error Panic.nilConn)
    (cmd : String) (args : List Value) (m : Machine σ) (hm : m.d.newConn = cf) :
    Doer.do_ impl cmd args m ≠ .error Panic.nilConn := by
  intro h
  unfold Doer.do_ at h
  cases hc : m.d.c with
  | some c =>
    simp only [hc] at h
    exact callConn_no_nilConn impl hdo hcl cmd args m c hc h
  | none =>
    simp only [hc, hm] at h
    cases hx : cf m.w with
    | error p =>
      simp only [hx, Except.error.injEq] at h
      subst h
      exact hcf m.w hx
    | ok y =>
      obtain ⟨⟨co, eo⟩, w1⟩ := y
      simp only [hx] at h
      cases eo with
      | some e => simp at h
      | none =>
        simp only at h
        cases co with
        | none =>
          have := hnil m.w none w1 hx
          simp at this
        | some c => exact callConn_no_nilConn impl hdo hcl cmd args _ c rfl h

theorem DoLoop_no_nilConn {σ : Type} (impl : Conn σ) (cf : ConnFactory σ)
    (hnil : ∀ w co w1, cf w = .ok ((co, none), w1) → co.isSome = true)
    (hcf : ∀ w, cf w ≠ .error Panic.nilConn)
    (hdo : ∀ c cmd args w, impl.Do c cmd args w ≠ .error Panic.nilConn)
    (hcl : ∀ c w, impl.Close c w ≠ .error Panic.nilConn)
    (cmd : String) (args : List Value) (k : Nat) :
    ∀ (n : Nat) (last : Result) (m : Machine σ), m.d.newConn = cf →
      Doer.DoLoop impl cmd args k n last m ≠ .error Panic.nilConn := by
  induction k with
  | zero =>
    intro n last m _ h
    simp [Doer.DoLoop] at h
  | succ k ih =>
    intro n last m hm h
    unfold Doer.DoLoop at h
    cases hx : Doer.do_ impl cmd args m with
    | error p =>
      simp only [hx, Except.error.injEq] at h
      subst h
      exact do_no_nilConn impl cf hnil hcf hdo hcl cmd args m hm hx
    | ok y =>
      obtain ⟨res, m1⟩ := y
      simp only [hx] at h
      cases hc : m1.d.c with
      | some c => simp [hc] at h
      | none =>
        simp only [hc] at h
        exact ih (n + 1) res { d := m1.d, w := m1.w, log := m1.log ++ [Event.sleep n] }
          ((do_steps impl cmd args m m1 res hx).2.trans hm) h

theorem runCalls_no_nilConn {σ : Type} (impl : Conn σ) (cf : ConnFactory σ)
    (hnil : ∀ w co w1, cf w = .ok ((co, none), w1) → co.isSome = true)
    (hcf : ∀ w, cf w ≠ .error Panic.nilConn)
    (hdo : ∀ c cmd args w, impl.Do c cmd args w ≠ .error Panic.nilConn)
    (hcl : ∀ c w, impl.Close c w ≠ .error Panic.nilConn) (calls : List Call) :
    ∀ m : Machine σ, m.d.newConn = cf →
      runCalls impl calls m ≠ .error Panic.nilConn := by
  induction calls with
  | nil =>
    intro m _ h
    simp [runCalls] at h
  | cons call rest ih =>
    intro m hm h
    cases call with
    | Do cmd args =>
      unfold runCalls at h
      cases hx : Doer.Do impl cmd args m with
      | error p =>
        simp only [hx, Except.error.injEq] at h
        subst h
        exact DoLoop_no_nilConn impl cf hnil hcf hdo hcl cmd args 5 0 (Value.nil, none) m hm hx
      | ok y =>
        obtain ⟨res, m1⟩ := y
        simp only [hx] at h
        cases hr : runCalls impl rest m1 with
        | error p =>
          simp only [hr, Except.error.injEq] at h
          subst h
          exact ih m1 ((Do_steps impl cmd args m m1 res hx).2.trans hm) hr
        | ok z => simp [hr] at h
    | Close =>
      unfold runCalls at h
      cases hx : Doer.Close impl m with
      | error p =>
        simp only [hx, Except.error.injEq] at h
        subst h
        exact Close_no_nilConn impl hcl m hx
      | ok m1 =>
        simp only [hx] at h
        exact ih m1 ((Close_steps impl m m1 hx).2.1.trans hm) h

/-- C19.  If every factory invocation that returns a nil error returns a
non-nil connection, then no sequence of `Do` and `Close` calls on a fresh
`Doer` ever calls a method through a nil connection, whatever the
connections do: the only panics of a run are those raised inside the factory
or inside a connection. -/
theorem no_nil_connection_use {σ : Type} (impl : Conn σ) (cf : ConnFactory σ) (w0 : σ)
    (calls : List Call)
    (hnil : ∀ w co w1, cf w = .ok ((co, none), w1) → co.isSome = true)
    (hcf : ∀ w, cf w ≠ .error Panic.nilConn)
    (hdo : ∀ c cmd args w, impl.Do c cmd args w ≠ .error Panic.nilConn)
    (hcl : ∀ c w, impl.Close c w ≠ .error Panic.nilConn) :
    runCalls impl calls (Machine.fresh cf w0) ≠ .error Panic.nilConn :=
  runCalls_no_nilConn impl cf hnil hcf hdo hcl calls (Machine.fresh cf w0) rfl

/-- C19 for `Do, Close, Do` on a fresh `Doer` whose factory numbers its
connections and whose connections answer every command with `io.EOF`. -/
theorem no_nil_connection_use_witness :
    runCalls (constConn (Value.nil, some Error.EOF))
        [Call.Do "GET" [Value.str "k"], Call.Close, Call.Do "PING" []]
        (Machine.fresh countingFactory 0) ≠ .error Panic.nilConn :=
  no_nil_connection_use (constConn (Value.nil, some Error.EOF)) countingFactory 0
    [Call.Do "GET" [Value.str "k"], Call.Close, Call.Do "PING" []]
    (fun w co w1 h => by
      simp only [countingFactory, Except.ok.injEq, Prod.mk.injEq] at h
      obtain ⟨⟨h1, _⟩, _⟩ := h
      rw [← h1]
      rfl)
    (fun w h => by cases h)
    (fun _ _ _ w h => by cases h)
    (fun _ w h => by cases h)

/-- Without the assumption of C19 the call does go through a nil connection:
a factory returning a nil connection with a nil error makes `Do` panic. -/
theorem nil_nil_factory_panics :
    Doer.Do (constConn (Value.int 42, none)) "GET" [Value.str "k"]
        (Machine.fresh (constFactory (none, none)) ()) = .error Panic.nilConn :=
  rfl

/-! ## C12, C13: the test double -/

/-- A task run on a `Doer` that holds the factory's current connection: the
command is executed once, and an injected transport error costs one
connection. -/
theorem runTask_held (t : Task) (m : Machine logConnFactory) (c : ConnId)
    (hd : m.d = { newConn := logConnFactory.New, c := some c })
    (hconn : m.w.conn = some c) (herr : m.w.err = none)
    (hvalid : t.err = none ∨ dropsConn t.err = true) :
    ∃ m1 c1, runTask t m = .ok ((Value.int ((m.w.done + 1 : Nat) : Int), none), m1) ∧
      m1.d = { newConn := logConnFactory.New, c := some c1 } ∧
      m1.w.conn = some c1 ∧ m1.w.err = none ∧ m1.w.done = m.w.done + 1 ∧
      m1.w.created = m.w.created + (if t.err.isSome then 1 else 0) ∧
      m1.w.closed = m.w.closed + (if t.err.isSome then 1 else 0) := by
  obtain ⟨⟨f, c0⟩, ⟨done, lastDone, created, closed, err, conn⟩, log⟩ := m
  obtain ⟨terr, cmd, args⟩ := t
  simp only [Doer.mk.injEq] at hd
  obtain ⟨hf, hc0⟩ := hd
  simp only at hconn herr hvalid
  subst hf hc0 hconn herr
  cases terr with
  | none =>
    refine ⟨
      { d := { newConn := logConnFactory.New, c := some c },
        w := { done := done + 1, lastDone := cmdArgsToString cmd args, created := created,
               closed := closed, err := none, conn := some c },
        log := log ++ [Event.connDo c cmd args (Value.int ((done + 1 : Nat) : Int)) none] },
      c, ?_, rfl, rfl, rfl, rfl, rfl, rfl⟩
    simp [runTask, Doer.Do, Doer.DoLoop, Doer.do_, Doer.callConn, logConnImpl, logConn.Do,
      dropsConn, isNetError]
  | some e =>
    have hk : dropsConn (some e) = true := by
      rcases hvalid with h | h
      · cases h
      · exact h
    have h1 := do_drop logConnImpl cmd args
      { d := { newConn := logConnFactory.New, c := some c },
        w := { done := done, lastDone := lastDone, created := created, closed := closed,
               err := some e, conn := some c },
        log := log }
      c (Value.int (done : Int)) (some e) none
      { done := done, lastDone := lastDone, created := created, closed := closed,
        err := some e, conn := some c }
      { done := done, lastDone := lastDone, created := created, closed := closed,
        err := some e, conn := some c }
      { done := done, lastDone := lastDone, created := created, closed := closed + 1,
        err := none, conn := none }
      [] (Or.inl ⟨rfl, rfl, rfl⟩) rfl hk (by simp [logConnImpl, logConn.Close])
    have h2 := do_keep logConnImpl cmd args
      { d := { newConn := logConnFactory.New, c := none },
        w := { done := done, lastDone := lastDone, created := created, closed := closed + 1,
               err := none, conn := none },
        log := log ++ [] ++ [Event.connDo c cmd args (Value.int (done : Int)) (some e),
          Event.connClose c] ++ [Event.sleep 0] }
      (created + 1) (Value.int ((done + 1 : Nat) : Int)) none
      { done := done, lastDone := lastDone, created := created + 1, closed := closed + 1,
        err := none, conn := some (created + 1) }
      { done := done + 1, lastDone := cmdArgsToString cmd args, created := created + 1,
        closed := closed + 1, err := none, conn := some (created + 1) }
      [Event.newConn (some (created + 1)) none] (Or.inr ⟨rfl, rfl, rfl⟩) rfl rfl
    have h3 := DoLoop_return logConnImpl cmd args 3 1 (Value.int (done : Int), some e) _ _ _
      (created + 1) h2 rfl
    have h4 := DoLoop_retry logConnImpl cmd args 4 0 (Value.nil, none) _ _ _ h1 rfl
    exact ⟨_, created + 1, h4.trans h3, rfl, rfl, rfl, rfl, rfl, rfl⟩

/-- A task run on a fresh `Doer`: a connection is created, after the factory
has consumed the injected error if there is one. -/
theorem runTask_fresh (t : Task) (m : Machine logConnFactory)
    (hd : m.d = { newConn := logConnFactory.New, c := none })
    (hconn : m.w.conn = none) (herr : m.w.err = none) :
    ∃ m1 c1, runTask t m = .ok ((Value.int ((m.w.done + 1 : Nat) : Int), none), m1) ∧
      m1.d = { newConn := logConnFactory.New, c := some c1 } ∧
      m1.w.conn = some c1 ∧ m1.w.err = none ∧ m1.w.done = m.w.done + 1 ∧
      m1.w.created = m.w.created + 1 ∧ m1.w.closed = m.w.closed := by
  obtain ⟨⟨f, c0⟩, ⟨done, lastDone, created, closed, err, conn⟩, log⟩ := m
  obtain ⟨terr, cmd, args⟩ := t
  simp only [Doer.mk.injEq] at hd
  obtain ⟨hf, hc0⟩ := hd
  simp only at hconn herr
  subst hf hc0 hconn herr
  cases terr with
  | none =>
    refine ⟨
      { d := { newConn := logConnFactory.New, c := some (created + 1) },
        w := { done := done + 1, lastDone := cmdArgsToString cmd args, created := created + 1,
               closed := closed, err := none, conn := some (created + 1) },
        log := log ++ [Event.newConn (some (created + 1)) none,
          Event.connDo (created + 1) cmd args (Value.int ((done + 1 : Nat) : Int)) none] },
      created + 1, ?_, rfl, rfl, rfl, rfl, rfl, rfl⟩
    simp [runTask, Doer.Do, Doer.DoLoop, Doer.do_, Doer.callConn, logConnImpl, logConn.Do,
      logConnFactory.New, dropsConn, isNetError]
  | some e =>
    refine ⟨
      { d := { newConn := logConnFactory.New, c := some (created + 1) },
        w := { done := done + 1, lastDone := cmdArgsToString cmd args, created := created + 1,
               closed := closed, err := none, conn := some (created + 1) },
        log := log ++ [Event.newConn none (some e), Event.sleep 0, Event.newConn (some (created + 1)) none,
          Event.connDo (created + 1) cmd args (Value.int ((done + 1 : Nat) : Int)) none] },
      created + 1, ?_, rfl, rfl, rfl, rfl, rfl, rfl⟩
    simp [runTask, Doer.Do, Doer.DoLoop, Doer.do_, Doer.callConn, logConnImpl, logConn.Do,
      logConnFactory.New, dropsConn, isNetError]

theorem injected_cons (t : Task) (rest : List Task) :
    injected (t :: rest) = (if t.err.isSome then 1 else 0) + injected rest := by
  cases h : t.err.isSome
  · simp [injected, List.filter_cons, h]
  · simp [injected, List.filter_cons, h]
    omega

/-- The test loop continued on a `Doer` that holds the factory's current
connection. -/
theorem runTasks_held (tasks : List Task) :
    ∀ (m : Machine logConnFactory) (c : ConnId),
      m.d = { newConn := logConnFactory.New, c := some c } →
      m.w.conn = some c → m.w.err = none →
      (∀ t ∈ tasks, t.err = none ∨ dropsConn t.err = true) →
      ∃ m1 c1, runTasks tasks m =
          .ok ((List.range tasks.length).map
            (fun k => (Value.int ((m.w.done + k + 1 : Nat) : Int), none)), m1) ∧
        m1.d = { newConn := logConnFactory.New, c := some c1 } ∧
        m1.w.conn = some c1 ∧ m1.w.err = none ∧
        m1.w.done = m.w.done + tasks.length ∧
        m1.w.created = m.w.created + injected tasks ∧
        m1.w.closed = m.w.closed + injected tasks := by
  induction tasks with
  | nil =>
    intro m c hd hconn herr _
    exact ⟨m, c, rfl, hd, hconn, herr, rfl, rfl, rfl⟩
  | cons t rest ih =>
    intro m c hd hconn herr hvalid
    obtain ⟨m1, c1, h, hd1, hconn1, herr1, hdone1, hcr1, hcl1⟩ :=
      runTask_held t m c hd hconn herr (hvalid t (List.mem_cons_self t rest))
    obtain ⟨m2, c2, g, hd2, hconn2, herr2, hdone2, hcr2, hcl2⟩ :=
      ih m1 c1 hd1 hconn1 herr1 (fun u hu => hvalid u (List.mem_cons_of_mem t hu))
    refine ⟨m2, c2, ?_, hd2, hconn2, herr2, ?_, ?_, ?_⟩
    · simp only [runTasks, h, g, List.length_cons, List.range_succ_eq_map, List.map_cons,
        List.map_map, hdone1]
      congr 3
      apply List.map_congr_left
      intro k _
      simp only [Function.comp, Nat.succ_eq_add_one]
      congr 3
      omega
    · rw [hdone2, hdone1, List.length_cons]
      omega
    · rw [hcr2, hcr1, injected_cons]
      omega
    · rw [hcl2, hcl1, injected_cons]
      omega

/-- The test loop on the fresh `Doer` of the test, for a non-empty table:
the `k`-th `Do` returns `k` and no error; one connection is created by the
first task, whether or not it injects an error, and one more by every later
task that injects one. -/
theorem runTasks_fresh (t : Task) (rest : List Task)
    (hvalid : ∀ u ∈ t :: rest, u.err = none ∨ dropsConn u.err = true) :
    ∃ m1 c1, runTasks (t :: rest) (Machine.fresh logConnFactory.New logConnFactory.zero) =
        .ok ((List.range (t :: rest).length).map
          (fun k => (Value.int ((k + 1 : Nat) : Int), none)), m1) ∧
      m1.d = { newConn := logConnFactory.New, c := some c1 } ∧
      m1.w.conn = some c1 ∧ m1.w.err = none ∧
      m1.w.done = (t :: rest).length ∧
      m1.w.created = 1 + injected rest ∧ m1.w.closed = injected rest := by
  obtain ⟨m1, c1, h, hd1, hconn1, herr1, hdone1, hcr1, hcl1⟩ :=
    runTask_fresh t (Machine.fresh logConnFactory.New logConnFactory.zero) rfl rfl rfl
  obtain ⟨m2, c2, g, hd2, hconn2, herr2, hdone2, hcr2, hcl2⟩ :=
    runTasks_held rest m1 c1 hd1 hconn1 herr1 (fun u hu => hvalid u (List.mem_cons_of_mem t hu))
  have hz : (Machine.fresh logConnFactory.New logConnFactory.zero).w.done = 0 := rfl
  have hzc : (Machine.fresh logConnFactory.New logConnFactory.zero).w.created = 0 := rfl
  have hzl : (Machine.fresh logConnFactory.New logConnFactory.zero).w.closed = 0 := rfl
  rw [hz] at hdone1 h
  rw [hzc] at hcr1
  rw [hzl] at hcl1
  refine ⟨m2, c2, ?_, hd2, hconn2, herr2, ?_, ?_, ?_⟩
  · simp only [runTasks, h, g, List.length_cons, List.range_succ_eq_map, List.map_cons,
      List.map_map, hdone1]
    congr 3
    apply List.map_congr_left
    intro k _
    simp only [Function.comp, Nat.succ_eq_add_one]
    congr 3
    omega
  · rw [hdone2, hdone1, List.length_cons]
    omega
  · rw [hcr2, hcr1]
  · rw [hcl2, hcl1]
    omega

/-- What `TestDoConnError` leaves behind for a non-empty table of tasks:
after the final `Close`, the number of connections created is one plus the
number of error-injecting tasks after the first one, and all of them are
closed.  An error injected by the first task is consumed by the factory and
costs no connection. -/
theorem runTest_created (t : Task) (rest : List Task)
    (hvalid : ∀ u ∈ t :: rest, u.err = none ∨ dropsConn u.err = true) :
    ∃ rs m2, runTest (t :: rest) = .ok (rs, m2) ∧
      m2.w.created = 1 + injected rest ∧ m2.w.closed = m2.w.created := by
  obtain ⟨m1, c1, h, hd1, hconn1, _, _, hcr1, hcl1⟩ := runTasks_fresh t rest hvalid
  obtain ⟨⟨f, c0⟩, ⟨done, lastDone, created, closed, err, conn⟩, log⟩ := m1
  simp only [Doer.mk.injEq] at hd1
  obtain ⟨hf, hc0⟩ := hd1
  simp only at hconn1 hcr1 hcl1
  subst hf hc0 hconn1
  refine ⟨(List.range (t :: rest).length).map
      (fun k => (Value.int ((k + 1 : Nat) : Int), none)),
    { d := { newConn := logConnFactory.New, c := none },
      w := { done := done, lastDone := lastDone, created := created, closed := closed + 1,
             err := none, conn := none },
      log := log ++ [Event.connClose c1] }, ?_, hcr1, ?_⟩
  · simp [runTest, h, Doer.Close, logConnImpl, logConn.Close]
  · simp only
    omega

/-- C12 at the table of `TestDoConnError`: every `Do` returns its position
and no error, but after the final `Close` 3 connections have been created
(and 3 closed), while the number of error-injecting tasks plus one is 4.  The
error injected by the first task is consumed by the factory before any
connection exists. -/
theorem TestDoConnError_created :
    ∃ m, runTest testTasks =
        .ok ([(Value.int 1, none), (Value.int 2, none), (Value.int 3, none),
              (Value.int 4, none), (Value.int 5, none)], m) ∧
      m.w.created = 3 ∧ m.w.closed = 3 ∧ injected testTasks + 1 = 4 :=
  ⟨_, rfl, rfl, rfl, rfl⟩

/-- C13.  In the test double, for every table of tasks run on a fresh
`Doer`, each task optionally injecting one transport error (`io.EOF` or a
`net.Error`) before its `Do` call, the `k`-th `Do` call returns the reply `k`
and a nil error, and the number of commands executed is the number of
tasks. -/
theorem injected_errors_hidden (tasks : List Task)
    (hvalid : ∀ t ∈ tasks, t.err = none ∨ dropsConn t.err = true) :
    ∃ m1, runTasks tasks (Machine.fresh logConnFactory.New logConnFactory.zero) =
        .ok ((List.range tasks.length).map
          (fun k => (Value.int ((k + 1 : Nat) : Int), none)), m1) ∧
      m1.w.done = tasks.length := by
  cases tasks with
  | nil => exact ⟨_, rfl, rfl⟩
  | cons t rest =>
    obtain ⟨m1, _, h, _, _, _, hdone, _, _⟩ := runTasks_fresh t rest hvalid
    exact ⟨m1, h, hdone⟩

/-- C13 at the table of `TestDoConnError`. -/
theorem injected_errors_hidden_witness :
    ∃ m1, runTasks testTasks (Machine.fresh logConnFactory.New logConnFactory.zero) =
        .ok ((List.range testTasks.length).map
          (fun k => (Value.int ((k + 1 : Nat) : Int), none)), m1) ∧
      m1.w.done = testTasks.length :=
  injected_errors_hidden testTasks (by decide)

end Redido
